import Mathlib

/-!
# Verification of the in-memory VFS component (vfs.py / shell.py)

Shallow embedding of the repository's virtual-file-system logic:

* Python `str` values are embedded as `List Char` (`PyStr`), Python `bytes`
  as `List Nat` (`Bytes`, each entry `< 256` in well-formed data).
* `VfsNode` mirrors the `VfsNode` dataclass of `vfs.py` (fields `name`,
  `is_dir`, `children`, `content`); the Python `Dict[str, VfsNode]` is
  embedded as an association list with unique keys built by the same
  assignment discipline (`setChild` replaces in place, else appends, exactly
  like CPython dict assignment preserves insertion order).
* CSV I/O is embedded at row granularity: the `csv` module's
  quoting/unquoting of individual fields is a faithful inverse pair, so
  `to_csv` is modelled as producing the list of rows (each a list of
  fields) it writes, and `from_csv` as consuming such a list, the first row
  being the header (`csv.DictReader` semantics).
* Python's `base64.b64encode` / `b64decode` (non-validating
  `binascii.a2b_base64`) are embedded as executable functions below.
* Exceptions are embedded as `Except` with an error type whose
  constructors carry the same data the `VfsLoadError` messages name.
-/

set_option maxHeartbeats 1000000

namespace VfsSpec

/-- Embedding of a Python `str` as its list of characters. -/
abbrev PyStr := List Char

/-- Embedding of a Python `bytes` value. -/
abbrev Bytes := List Nat

/-- Character data of a string literal. -/
def pys (s : String) : PyStr := s.data

/-! ## String primitives used by vfs.py / shell.py -/

/-- Python `s.split("/")`: `""` yields `[""]`, separators delimit
(possibly empty) fields. -/
def splitSlash : PyStr → List PyStr
  | [] => [[]]
  | c :: rest =>
    if c = '/' then [] :: splitSlash rest
    else
      match splitSlash rest with
      | s :: ss => (c :: s) :: ss
      | [] => [[c]]

/-- Python `s.lstrip("/")`. -/
def lstripSlash (s : PyStr) : PyStr := s.dropWhile (fun c => c = '/')

/-- Python `s.startswith("/")`. -/
def startsWithSlash : PyStr → Bool
  | [] => false
  | c :: _ => c = '/'

/-- The whitespace characters stripped by Python `str.strip()` (the ASCII
and Latin-1 ones; higher Unicode space characters behave identically and
are elided from the embedding). -/
def pyIsSpace (c : Char) : Bool :=
  c = ' ' || c = '\t' || c = '\n' || c = '\x0d' || c = '\x0b' || c = '\x0c' ||
  c = '\x1c' || c = '\x1d' || c = '\x1e' || c = '\x1f' || c = '\x85' || c = '\xa0'

/-- Python `s.strip()` (default whitespace stripping at both ends). -/
def pyStrip (s : PyStr) : PyStr :=
  ((s.dropWhile pyIsSpace).reverse.dropWhile pyIsSpace).reverse

/-- Join segments with `/` separators, no leading slash. -/
def relJoin : List PyStr → PyStr
  | [] => []
  | [n] => n
  | n :: rest => n ++ '/' :: relJoin rest

/-- The absolute path of a segment list: `/` for the empty list, else `/`
followed by the `/`-joined segments. -/
def joinAbs (segs : List PyStr) : PyStr :=
  if segs = [] then pys "/" else '/' :: relJoin segs

/-- The segment list `_insert_row` computes from a raw path: split on `/`
after stripping leading slashes, drop empty segments. -/
def parseParts (p : PyStr) : List PyStr :=
  (splitSlash (lstripSlash p)).filter (fun q => q ≠ [])

/-- Lexicographic `≤` on Python strings (code-point order), as used by
`sorted` on the keys of `children`. -/
def lexLe : PyStr → PyStr → Bool
  | [], _ => true
  | _ :: _, [] => false
  | a :: as, b :: bs => if a = b then lexLe as bs else decide (a < b)

/-! ## Base64 (`base64.b64encode` / `b64decode` via `binascii`) -/

/-- The standard base64 alphabet. -/
def b64alpha : PyStr :=
  pys "ABCDEFGHIJKLMNOPQRSTUVWXYZabcdefghijklmnopqrstuvwxyz0123456789+/"

/-- Character for a 6-bit group. -/
def b64char (n : Nat) : Char := b64alpha.getD n 'A'

def alphaIdxAux : List Char → Nat → Char → Option Nat
  | [], _, _ => none
  | a :: rest, i, c => if a = c then some i else alphaIdxAux rest (i + 1) c

/-- Index of a character in the base64 alphabet (`table_a2b_base64`). -/
def alphaIdx (c : Char) : Option Nat := alphaIdxAux b64alpha 0 c

/-- `base64.b64encode`, emitting 4 characters per 3 input bytes with `=`
padding. -/
def b64encodeBytes : Bytes → PyStr
  | [] => []
  | [a] => [b64char (a / 4), b64char (a % 4 * 16), '=', '=']
  | [a, b] => [b64char (a / 4), b64char (a % 4 * 16 + b / 16), b64char (b % 16 * 4), '=']
  | a :: b :: c :: rest =>
    b64char (a / 4) :: b64char (a % 4 * 16 + b / 16) ::
      b64char (b % 16 * 4 + c / 64) :: b64char (c % 64) :: b64encodeBytes rest

/-- The distinct failure modes of `content_b64.encode("ascii")` followed by
`binascii.a2b_base64` in non-strict mode. -/
inductive B64Error where
  | nonAscii
  | oneExtra
  | invalidPadding
deriving DecidableEq, Repr

/-- The decode loop of `binascii.a2b_base64` (non-strict): characters
outside the alphabet are skipped, `=` that completes a quad of ≥ 2 data
characters terminates decoding, trailing partial quads without padding are
errors. State: `quadPos` (data chars in current quad), `leftchar`
(accumulated bits), `pads` (pads seen in the current quad). -/
def b64loop : List Char → Nat → Nat → Nat → Except B64Error Bytes
  | [], quadPos, _, _ =>
    if quadPos = 0 then .ok []
    else if quadPos = 1 then .error .oneExtra
    else .error .invalidPadding
  | c :: rest, quadPos, leftchar, pads =>
    if c = '=' then
      if 2 ≤ quadPos then
        if 4 ≤ quadPos + (pads + 1) then
          if quadPos = 2 then .ok [leftchar / 16]
          else .ok [leftchar / 1024, leftchar / 4 % 256]
        else b64loop rest quadPos leftchar (pads + 1)
      else b64loop rest quadPos leftchar pads
    else
      match alphaIdx c with
      | none => b64loop rest quadPos leftchar pads
      | some v =>
        if quadPos = 3 then
          match b64loop rest 0 0 0 with
          | .ok tl =>
            .ok ((leftchar * 64 + v) / 65536 :: (leftchar * 64 + v) / 256 % 256 ::
                  (leftchar * 64 + v) % 256 :: tl)
          | .error e => .error e
        else b64loop rest (quadPos + 1) (leftchar * 64 + v) 0

/-- `base64.b64decode(s.encode("ascii"))`: the ASCII encode step fails on
non-ASCII characters, then the `a2b_base64` loop runs. -/
def b64decodeStr (s : PyStr) : Except B64Error Bytes :=
  if s.all (fun c => c.toNat ≤ 127) then b64loop s 0 0 0
  else .error .nonAscii

/-! ## The VfsNode dataclass -/

/-- `VfsNode(name, is_dir, children, content)` from vfs.py. `children` is
the insertion-ordered dict entries; `content` is only meaningful when
`is_dir` is false. -/
inductive VfsNode where
  | mk (name : PyStr) (is_dir : Bool) (children : List (PyStr × VfsNode)) (content : Bytes)

def VfsNode.name : VfsNode → PyStr
  | .mk n _ _ _ => n

def VfsNode.is_dir : VfsNode → Bool
  | .mk _ d _ _ => d

def VfsNode.children : VfsNode → List (PyStr × VfsNode)
  | .mk _ _ cs _ => cs

def VfsNode.content : VfsNode → Bytes
  | .mk _ _ _ ct => ct

/-- Replace the children dict, keeping the other fields. -/
def VfsNode.withChildren : VfsNode → List (PyStr × VfsNode) → VfsNode
  | .mk n d _ ct, cs => .mk n d cs ct

/-- Python dict lookup `name in children` / `children[name]`. -/
def lookupChild : List (PyStr × VfsNode) → PyStr → Option VfsNode
  | [], _ => none
  | (k, v) :: rest, n => if k = n then some v else lookupChild rest n

/-- Python dict assignment `children[name] = node`: replaces in place if
the key exists, otherwise appends. -/
def setChild : List (PyStr × VfsNode) → PyStr → VfsNode → List (PyStr × VfsNode)
  | [], n, v => [(n, v)]
  | (k, w) :: rest, n, v =>
    if k = n then (n, v) :: rest else (k, w) :: setChild rest n v

/-- A fresh empty directory node, as created by `ensure_child_dir`. -/
def emptyDirNamed (n : PyStr) : VfsNode := .mk n true [] []

instance : Inhabited VfsNode := ⟨.mk [] false [] []⟩

/-! ## Errors -/

/-- The distinct `VfsLoadError` messages of vfs.py, with the data each
message names. -/
inductive VfsLoadError where
  | pathConflict (name : PyStr)
  | pathMustStartSlash (raw : PyStr)
  | rootMustBeDir
  | invalidPath (raw : PyStr)
  | invalidBase64 (raw : PyStr) (e : B64Error)
  | invalidType (ty raw : PyStr)
  | emptyPathField
  | invalidHeader
deriving DecidableEq, Repr

/-! ## CSV deserialization (`Vfs.from_csv` / `Vfs._insert_row`) -/

/-- `VfsNode.ensure_child_dir`, returning the updated parent: reuse an
existing directory child, error on an existing file child, create a fresh
directory otherwise. -/
def ensureChildDirF (node : VfsNode) (n : PyStr) : Except VfsLoadError VfsNode :=
  match lookupChild node.children n with
  | some c => if c.is_dir then .ok node else .error (.pathConflict n)
  | none => .ok (node.withChildren (setChild node.children n (emptyDirNamed n)))

/-- `VfsNode.set_file`: create or overwrite a file child. -/
def setFileF (node : VfsNode) (n : PyStr) (content : Bytes) : VfsNode :=
  node.withChildren (setChild node.children n (.mk n false [] content))

/-- The walk-and-materialize loop of `Vfs._insert_row` over the non-empty
segment list: every segment but the last walks through
`ensure_child_dir` (functionally: look up, error on a file, recurse into
the existing or fresh directory, write the result back — equivalent to the
in-place mutation because a fresh child is appended and then updated at
its key), and the final segment is materialized according to `node_type`. -/
def insertParts (node : VfsNode) (parts : List PyStr) (node_type : PyStr)
    (content_b64 : PyStr) (raw : PyStr) : Except VfsLoadError VfsNode :=
  match parts with
  | [] => .ok node
  | [leaf] =>
    if node_type = pys "dir" then ensureChildDirF node leaf
    else if node_type = pys "file" then
      match b64decodeStr content_b64 with
      | .ok content => .ok (setFileF node leaf content)
      | .error e => .error (.invalidBase64 raw e)
    else .error (.invalidType node_type raw)
  | p :: rest =>
    match lookupChild node.children p with
    | some c =>
      if c.is_dir then
        match insertParts c rest node_type content_b64 raw with
        | .ok c2 => .ok (node.withChildren (setChild node.children p c2))
        | .error e => .error e
      else .error (.pathConflict p)
    | none =>
      match insertParts (emptyDirNamed p) rest node_type content_b64 raw with
      | .ok c2 => .ok (node.withChildren (setChild node.children p c2))
      | .error e => .error e

/-- `Vfs._insert_row`. -/
def insertRow (root : VfsNode) (raw_path : PyStr) (node_type : PyStr)
    (content_b64 : PyStr) : Except VfsLoadError VfsNode :=
  if startsWithSlash raw_path = false then .error (.pathMustStartSlash raw_path)
  else if raw_path = pys "/" then
    if node_type = pys "dir" then .ok root else .error .rootMustBeDir
  else
    let parts := (splitSlash (lstripSlash raw_path)).filter (fun p => p ≠ [])
    if parts = [] then .error (.invalidPath raw_path)
    else insertParts root parts node_type content_b64 raw_path

/-- `dict(zip(fieldnames, row))` lookup: the last binding of a key wins,
keys or values beyond the shorter list are dropped (`DictReader` uses
`None` for missing values, which `or ""` turns into the empty string). -/
def assocLast : List (PyStr × PyStr) → PyStr → Option PyStr
  | [], _ => none
  | (k, v) :: rest, key =>
    match assocLast rest key with
    | some w => some w
    | none => if k = key then some v else none

/-- `row.get(key) or ""` under `csv.DictReader` with the given header. -/
def rowGet (header row : List PyStr) (key : PyStr) : PyStr :=
  (assocLast (header.zip row) key).getD []

/-- Processing of one data row by the `from_csv` loop. -/
def stepRow (t : VfsNode) (header row : List PyStr) : Except VfsLoadError VfsNode :=
  let raw_path := pyStrip (rowGet header row (pys "path"))
  let node_type := pyStrip (rowGet header row (pys "type"))
  let content_b64 := rowGet header row (pys "content_base64")
  if raw_path = [] then .error .emptyPathField
  else insertRow t raw_path node_type content_b64

/-- The `for row in reader` loop: `DictReader` skips blank rows, the first
raised `VfsLoadError` aborts the load. -/
def insertAllRows (t : VfsNode) (header : List PyStr) :
    List (List PyStr) → Except VfsLoadError VfsNode
  | [] => .ok t
  | row :: rs =>
    if row = [] then insertAllRows t header rs
    else
      match stepRow t header row with
      | .ok t2 => insertAllRows t2 header rs
      | .error e => .error e

/-- The three required header fields. -/
def headerOk (header : List PyStr) : Bool :=
  decide (pys "path" ∈ header) && decide (pys "type" ∈ header) &&
    decide (pys "content_base64" ∈ header)

/-- The fresh root `VfsNode(name="/", is_dir=True)`. -/
def freshRoot : VfsNode := .mk (pys "/") true [] []

/-- `Vfs.from_csv` given the header row and the data rows: the header is
validated before any row is processed. -/
def fromCsvRows (header : List PyStr) (rows : List (List PyStr)) :
    Except VfsLoadError VfsNode :=
  if headerOk header then insertAllRows freshRoot header rows
  else .error .invalidHeader

/-- `Vfs.from_csv` on a whole CSV (header row followed by data rows); an
empty file has `fieldnames` `None`, which fails the header check. -/
def fromCsvOutput : List (List PyStr) → Except VfsLoadError VfsNode
  | [] => .error .invalidHeader
  | header :: rows => fromCsvRows header rows

/-! ## CSV serialization (`Vfs.to_csv` / `Vfs._write_node_recursive`) -/

/-- `sorted(children.items())`: ascending lexicographic order of the keys
(keys are unique in a dict, so the node components never get compared). -/
def sortPairs (cs : List (PyStr × VfsNode)) : List (PyStr × VfsNode) :=
  List.insertionSort (fun a b => lexLe a.1 b.1 = true) cs

/-- Child path construction of `_write_node_recursive`: `f"/{name}"` under
the root, `f"{current_path}/{name}"` elsewhere. -/
def childPathOf (cur : PyStr) (n : PyStr) : PyStr :=
  if cur = pys "/" then '/' :: n else cur ++ '/' :: n

/- Size measure used to encode the recursion of `_write_node_recursive`
(which recurses over the *sorted* children list, not a structural
subterm). -/
mutual
/-- Weight of a node: one more than the weight of its children list. -/
def weightN : VfsNode → Nat
  | .mk _ _ cs _ => weightL cs + 1
def weightL : List (PyStr × VfsNode) → Nat
  | [] => 0
  | (_, c) :: rest => weightN c + weightL rest + 1
end

/-- Fueled body of `_write_node_recursive`: write this node's row (the
root path is always written as a `dir` row), stop for files, otherwise
recurse into the children sorted by name. -/
def writeRowsF : Nat → VfsNode → PyStr → List (List PyStr)
  | 0, _, _ => []
  | fuel + 1, node, cur =>
    let row : List PyStr :=
      if cur = pys "/" then [cur, pys "dir", []]
      else if node.is_dir then [cur, pys "dir", []]
      else [cur, pys "file", b64encodeBytes node.content]
    if node.is_dir = false then [row]
    else
      row :: (sortPairs node.children).flatMap
        (fun kc => writeRowsF fuel kc.2 (childPathOf cur kc.1))

/-- `Vfs._write_node_recursive` (the fuel `weightN node` is always
sufficient, see `writeRowsF_fuel`). -/
def writeNodeRows (node : VfsNode) (cur : PyStr) : List (List PyStr) :=
  writeRowsF (weightN node) node cur

/-- The header row written by `to_csv`. -/
def csvHeaderRow : List PyStr := [pys "path", pys "type", pys "content_base64"]

/-- `Vfs.to_csv` as the list of rows it writes: the header row, then the
recursive node rows starting at the root path. -/
def toCsvOutput (root : VfsNode) : List (List PyStr) :=
  csvHeaderRow :: writeNodeRows root (pys "/")

/-! ## Path resolution (`Shell._make_abs_path`) -/

/-- The segment-processing loop of `_make_abs_path`: skip empty and `.`,
`..` pops the last segment when one exists (`list.pop()`; a no-op at
root), anything else is appended. -/
def processLoop : List PyStr → List PyStr → List PyStr
  | [], acc => acc
  | s :: rest, acc =>
    if s = [] || s = pys "." then processLoop rest acc
    else if s = pys ".." then processLoop rest acc.dropLast
    else processLoop rest (acc ++ [s])

/-- `Shell._make_abs_path(path)` with the given `self.current_dir`. -/
def makeAbsPath (current_dir : PyStr) (path : PyStr) : PyStr :=
  let bt : List PyStr × PyStr :=
    if startsWithSlash path then ([], lstripSlash path)
    else
      (if current_dir = pys "/" then []
       else (splitSlash (lstripSlash current_dir)).filter (fun p => p ≠ []), path)
  let base := processLoop (splitSlash bt.2) bt.1
  if base = [] then pys "/" else '/' :: List.intercalate (pys "/") base

/-- The resolution algorithm exactly as the spec words it (§4.3): seed the
stack from the current directory's segments unless the input is absolute,
then fold the input's `/`-separated segments with skip/pop/push. -/
def specStep (stack : List PyStr) (seg : PyStr) : List PyStr :=
  if seg = [] || seg = pys "." then stack
  else if seg = pys ".." then stack.dropLast
  else stack ++ [seg]

/-- Spec §4.3: the current directory's segments (`/` has none). -/
def specSegments (s : PyStr) : List PyStr :=
  (splitSlash s).filter (fun p => p ≠ [])

/-- Spec §4.3 resolver. -/
def specResolve (current_dir path : PyStr) : PyStr :=
  let init := if startsWithSlash path then [] else specSegments current_dir
  let fin := (splitSlash path).foldl specStep init
  if fin = [] then pys "/" else '/' :: List.intercalate (pys "/") fin

/-! ## Node lookup and recursive size

`Vfs.find_node` and `Vfs.compute_size` are called from src/shell.py but
their definitions are not among the source files; they are modelled from
the spec. -/

/-- Modelled from the spec: the walk of `Vfs.find_node` (absent from
src/), spec §4.4 — "walk the path's segments from root, following
`children` lookups; returns not-found if any segment is missing along the
way or an intermediate segment resolves to a file". -/
def walkSegs : VfsNode → List PyStr → Option VfsNode
  | n, [] => some n
  | n, s :: rest =>
    if n.is_dir then
      match lookupChild n.children s with
      | some c => walkSegs c rest
      | none => none
    else none

/-- Modelled from the spec: `Vfs.find_node` (absent from src/), spec §4.4.
The path `/` has no segments, so it resolves to the root node itself. -/
def findNode (root : VfsNode) (path : PyStr) : Option VfsNode :=
  walkSegs root ((splitSlash path).filter (fun p => p ≠ []))

mutual
/-- Modelled from the spec: the recursive size of a node (absent from
src/), spec §4.4 — file size is `length(content)`, directory size is the
sum over children (zero when empty). -/
def nodeSize : VfsNode → Nat
  | .mk _ d cs ct => if d then childrenSize cs else ct.length
def childrenSize : List (PyStr × VfsNode) → Nat
  | [] => 0
  | (_, c) :: rest => nodeSize c + childrenSize rest
end

/-- The error signalled by `compute_size` on a missing node. -/
inductive SizeError where
  | notFound
deriving DecidableEq, Repr

/-- Modelled from the spec: `Vfs.compute_size` (absent from src/), spec
§4.4 — find the node, signal `NotFoundError` if missing, otherwise its
recursive size. -/
def computeSize (root : VfsNode) (path : PyStr) : Except SizeError Nat :=
  match findNode root path with
  | none => .error .notFound
  | some n => .ok (nodeSize n)

/-! ## Well-formedness and structural views -/

/-- A legal child key / node name: a path segment is non-empty and free of
the separator. -/
def validName (n : PyStr) : Bool := decide (n ≠ []) && decide ('/' ∉ n)

/-- Dict keys are unique. -/
def keysNodup : List (PyStr × VfsNode) → Bool
  | [] => true
  | (k, _) :: rest => decide (k ∉ rest.map Prod.fst) && keysNodup rest

mutual
/-- The invariants every tree built by this program satisfies: directories
carry empty `content` and uniquely-keyed children whose stored key equals
the child's `name`; files carry no children and byte-valued content. -/
def wfNode : VfsNode → Bool
  | .mk _ d cs ct =>
    if d then decide (ct = []) && keysNodup cs && wfChildren cs
    else cs.isEmpty && ct.all (fun b => decide (b < 256))
def wfChildren : List (PyStr × VfsNode) → Bool
  | [] => true
  | (k, c) :: rest =>
    validName k && decide (k = c.name) && wfNode c && wfChildren rest
end

/-- A name whose serialized path survives `str.strip()`: its last
character is not whitespace. -/
def nameTrailOk (k : PyStr) : Bool :=
  match k.getLast? with
  | none => true
  | some c => !pyIsSpace c

mutual
/-- No node name below this node ends in whitespace (the root's own name
is never serialized, its row is the literal `/`). -/
def trailOkNode : VfsNode → Bool
  | .mk _ _ cs _ => trailOkChildren cs
def trailOkChildren : List (PyStr × VfsNode) → Bool
  | [] => true
  | (k, c) :: rest => nameTrailOk k && trailOkNode c && trailOkChildren rest
end

mutual
/-- Recursively sort every children list by name: the canonical form that
CSV round-tripping reconstructs. -/
def normalizeNode : VfsNode → VfsNode
  | .mk n d cs ct => .mk n d (sortPairs (normChildren cs)) ct
def normChildren : List (PyStr × VfsNode) → List (PyStr × VfsNode)
  | [] => []
  | (k, c) :: rest => (k, normalizeNode c) :: normChildren rest
end

mutual
/-- The directory paths of a tree, as segment lists relative to the node
(the node itself contributes `[]` when it is a directory). -/
def dirPathsD : VfsNode → List (List PyStr)
  | .mk _ d cs _ => if d then [] :: dirPathsChildren cs else []
def dirPathsChildren : List (PyStr × VfsNode) → List (List PyStr)
  | [] => []
  | (k, c) :: rest => (dirPathsD c).map (fun p => k :: p) ++ dirPathsChildren rest
end

mutual
/-- The file paths of a tree together with each file's byte content, as
segment lists relative to the node. -/
def fileEntries : VfsNode → List (List PyStr × Bytes)
  | .mk _ d cs ct => if d then fileEntriesChildren cs else [([], ct)]
def fileEntriesChildren : List (PyStr × VfsNode) → List (List PyStr × Bytes)
  | [] => []
  | (k, c) :: rest =>
    (fileEntries c).map (fun e => (k :: e.1, e.2)) ++ fileEntriesChildren rest
end

/-! ## Concrete data used by examples and witnesses -/

/-- The sample CSV of spec §6, at row granularity. -/
def sampleCsv : List (List PyStr) :=
  [csvHeaderRow,
   [pys "/", pys "dir", []],
   [pys "/docs", pys "dir", []],
   [pys "/docs/readme.txt", pys "file", pys "SGVsbG8sIFdvcmxkIQ=="]]

/-- The tree the sample CSV loads to. -/
def sampleTree : VfsNode :=
  .mk (pys "/") true
    [(pys "docs", .mk (pys "docs") true
      [(pys "readme.txt", .mk (pys "readme.txt") false []
        ((pys "Hello, World!").map Char.toNat))] [])] []

/-- A root containing only the 13-byte file `/docs/readme.txt` and the
empty directory `/docs/empty` (spec §8, size property). -/
def sizeTree : VfsNode :=
  .mk (pys "/") true
    [(pys "docs", .mk (pys "docs") true
      [(pys "empty", .mk (pys "empty") true [] []),
       (pys "readme.txt", .mk (pys "readme.txt") false []
         ((pys "Hello, World!").map Char.toNat))] [])] []

/-! ## Basic lemmas on the children dict -/

theorem lookupChild_setChild_self (cs : List (PyStr × VfsNode)) (n : PyStr) (v : VfsNode) :
    lookupChild (setChild cs n v) n = some v := by
  induction cs with
  | nil => simp [setChild, lookupChild]
  | cons hd tl ih =>
    obtain ⟨k, w⟩ := hd
    by_cases h : k = n
    · simp [setChild, h, lookupChild]
    · simp [setChild, h, lookupChild, ih]

theorem lookupChild_setChild_ne (cs : List (PyStr × VfsNode)) (n m : PyStr) (v : VfsNode)
    (h : m ≠ n) : lookupChild (setChild cs n v) m = lookupChild cs m := by
  induction cs with
  | nil => simp [setChild, lookupChild, Ne.symm h]
  | cons hd tl ih =>
    obtain ⟨k, w⟩ := hd
    by_cases hk : k = n
    · subst hk
      simp [setChild, lookupChild, Ne.symm h]
    · simp only [setChild, if_neg hk, lookupChild]
      by_cases hm : k = m <;> simp [hm, ih]

theorem setChild_setChild (cs : List (PyStr × VfsNode)) (n : PyStr) (v w : VfsNode) :
    setChild (setChild cs n v) n w = setChild cs n w := by
  induction cs with
  | nil => simp [setChild]
  | cons hd tl ih =>
    obtain ⟨k, u⟩ := hd
    by_cases h : k = n
    · simp [setChild, h]
    · simp [setChild, h, ih]

theorem lookupChild_eq_none_iff (cs : List (PyStr × VfsNode)) (n : PyStr) :
    lookupChild cs n = none ↔ n ∉ cs.map Prod.fst := by
  induction cs with
  | nil => simp [lookupChild]
  | cons hd tl ih =>
    obtain ⟨k, w⟩ := hd
    by_cases h : k = n
    · subst h; simp [lookupChild]
    · simp [lookupChild, h, ih, Ne.symm h]

theorem setChild_fresh (cs : List (PyStr × VfsNode)) (n : PyStr) (v : VfsNode)
    (h : lookupChild cs n = none) : setChild cs n v = cs ++ [(n, v)] := by
  induction cs with
  | nil => simp [setChild]
  | cons hd tl ih =>
    obtain ⟨k, w⟩ := hd
    by_cases hk : k = n
    · simp [lookupChild, hk] at h
    · simp [lookupChild, hk] at h
      simp [setChild, hk, ih h]

theorem lookupChild_append_right (cs ds : List (PyStr × VfsNode)) (n : PyStr)
    (h : lookupChild cs n = none) :
    lookupChild (cs ++ ds) n = lookupChild ds n := by
  induction cs with
  | nil => simp
  | cons hd tl ih =>
    obtain ⟨k, w⟩ := hd
    by_cases hk : k = n
    · simp [lookupChild, hk] at h
    · simp [lookupChild, hk] at h ⊢
      exact ih h

theorem setChild_append_last (cs : List (PyStr × VfsNode)) (n : PyStr) (v w : VfsNode)
    (h : lookupChild cs n = none) :
    setChild (cs ++ [(n, v)]) n w = cs ++ [(n, w)] := by
  induction cs with
  | nil => simp [setChild]
  | cons hd tl ih =>
    obtain ⟨k, u⟩ := hd
    by_cases hk : k = n
    · simp [lookupChild, hk] at h
    · simp [lookupChild, hk] at h
      simp [setChild, hk, ih h]

/-! ## Weight, sortPairs, and the writer's unfolding equations -/

theorem weightN_child_lt {k : PyStr} {c : VfsNode} {cs : List (PyStr × VfsNode)}
    (h : (k, c) ∈ cs) : weightN c < weightL cs + 1 := by
  induction cs with
  | nil => cases h
  | cons hd tl ih =>
    rcases List.mem_cons.mp h with h1 | h2
    · obtain ⟨k2, c2⟩ := hd
      cases h1
      simp [weightL]
      omega
    · obtain ⟨k2, c2⟩ := hd
      have := ih h2
      simp [weightL]
      omega

theorem mem_sortPairs {p : PyStr × VfsNode} {cs : List (PyStr × VfsNode)} :
    p ∈ sortPairs cs ↔ p ∈ cs := List.mem_insertionSort _

/-- The custom induction principle for the nested inductive `VfsNode`. -/
theorem nodeInd (motive : VfsNode → Prop)
    (step : ∀ n d cs ct, (∀ k c, (k, c) ∈ cs → motive c) → motive (.mk n d cs ct)) :
    ∀ t, motive t := by
  intro t
  generalize hw : weightN t = w
  induction w using Nat.strong_induction_on generalizing t with
  | _ w ih =>
    cases t with
    | mk n d cs ct =>
      refine step n d cs ct (fun k c hkc => ?_)
      have hlt : weightN c < weightN (VfsNode.mk n d cs ct) := by
        simpa [weightN] using weightN_child_lt hkc
      exact ih (weightN c) (hw ▸ hlt) c rfl

theorem writeRowsF_fuel :
    ∀ (fuel : Nat) (node : VfsNode) (cur : PyStr), weightN node ≤ fuel →
      writeRowsF fuel node cur = writeRowsF (weightN node) node cur := by
  intro fuel
  induction fuel using Nat.strong_induction_on with
  | _ fuel ih =>
    intro node cur hle
    cases node with
    | mk n d cs ct =>
      have hw : weightN (VfsNode.mk n d cs ct) = weightL cs + 1 := rfl
      rw [hw] at hle ⊢
      obtain ⟨f, rfl⟩ : ∃ f, fuel = f + 1 := ⟨fuel - 1, by omega⟩
      show writeRowsF (f + 1) _ cur = writeRowsF (weightL cs + 1) _ cur
      cases d with
      | false => rfl
      | true =>
        simp only [writeRowsF, VfsNode.is_dir, VfsNode.children,
          if_neg (by simp : ¬(true = false))]
        congr 1
        refine List.flatMap_congr (fun kc hkc => ?_)
        obtain ⟨k, c⟩ := kc
        have hmem : (k, c) ∈ cs := mem_sortPairs.mp hkc
        have hc : weightN c < weightL cs + 1 := weightN_child_lt hmem
        have h1 : writeRowsF f c (childPathOf cur k) = writeRowsF (weightN c) c (childPathOf cur k) :=
          ih f (by omega) c _ (by omega)
        have h2 : writeRowsF (weightL cs) c (childPathOf cur k) =
            writeRowsF (weightN c) c (childPathOf cur k) :=
          ih (weightL cs) (by omega) c _ (by omega)
        rw [h1, h2]

theorem writeNodeRows_dir (n : PyStr) (cs : List (PyStr × VfsNode)) (ct : Bytes) (cur : PyStr) :
    writeNodeRows (.mk n true cs ct) cur =
      [cur, pys "dir", []] ::
        (sortPairs cs).flatMap (fun kc => writeNodeRows kc.2 (childPathOf cur kc.1)) := by
  show writeRowsF (weightL cs + 1) _ cur = _
  simp only [writeRowsF, VfsNode.is_dir, VfsNode.children, VfsNode.content,
    if_neg (by simp : ¬(true = false))]
  congr 1
  · split <;> rfl
  · refine List.flatMap_congr (fun kc hkc => ?_)
    obtain ⟨k, c⟩ := kc
    have hmem : (k, c) ∈ cs := mem_sortPairs.mp hkc
    exact writeRowsF_fuel (weightL cs) c _ (by have := weightN_child_lt hmem; omega)

theorem writeNodeRows_file (n : PyStr) (cs : List (PyStr × VfsNode)) (ct : Bytes) (cur : PyStr) :
    writeNodeRows (.mk n false cs ct) cur =
      [if cur = pys "/" then [cur, pys "dir", []] else [cur, pys "file", b64encodeBytes ct]] := by
  show writeRowsF (weightL cs + 1) _ cur = _
  simp only [writeRowsF, VfsNode.is_dir, VfsNode.children, VfsNode.content]
  simp

/-! ## Path resolution: the source loop equals the spec's fold -/

theorem processLoop_eq_foldl : ∀ (l : List PyStr) (acc : List PyStr),
    processLoop l acc = l.foldl specStep acc
  | [], _ => rfl
  | s :: rest, acc => by
    simp only [processLoop, List.foldl_cons, specStep]
    split_ifs <;> exact processLoop_eq_foldl rest _

theorem foldl_specStep_lstrip (init : List PyStr) : ∀ (s : PyStr),
    (splitSlash (lstripSlash s)).foldl specStep init = (splitSlash s).foldl specStep init := by
  intro s
  induction s with
  | nil => rfl
  | cons c rest ih =>
    by_cases h : c = '/'
    · subst h
      have h1 : lstripSlash ('/' :: rest) = lstripSlash rest := by
        simp [lstripSlash, List.dropWhile]
      have h2 : splitSlash ('/' :: rest) = [] :: splitSlash rest := by
        simp [splitSlash]
      rw [h1, h2, ih, List.foldl_cons]
      simp [specStep]
    · have h1 : lstripSlash (c :: rest) = c :: rest := by
        simp [lstripSlash, List.dropWhile, h]
      rw [h1]

theorem filter_splitSlash_lstrip : ∀ (s : PyStr),
    (splitSlash (lstripSlash s)).filter (fun p => p ≠ []) =
      (splitSlash s).filter (fun p => p ≠ []) := by
  intro s
  induction s with
  | nil => rfl
  | cons c rest ih =>
    by_cases h : c = '/'
    · subst h
      have h1 : lstripSlash ('/' :: rest) = lstripSlash rest := by
        simp [lstripSlash, List.dropWhile]
      have h2 : splitSlash ('/' :: rest) = [] :: splitSlash rest := by
        simp [splitSlash]
      rw [h1, h2, ih]
      simp
    · have h1 : lstripSlash (c :: rest) = c :: rest := by
        simp [lstripSlash, List.dropWhile, h]
      rw [h1]

theorem makeAbsPath_eq_specResolve (current_dir path : PyStr) :
    makeAbsPath current_dir path = specResolve current_dir path := by
  unfold makeAbsPath specResolve
  by_cases hp : startsWithSlash path = true
  · simp only [hp, if_pos]
    rw [processLoop_eq_foldl, foldl_specStep_lstrip]
  · simp only [hp, if_neg, Bool.false_eq_true, if_false]
    rw [processLoop_eq_foldl]
    by_cases hc : current_dir = pys "/"
    · subst hc
      simp [specSegments, splitSlash]
    · simp only [hc, if_neg, if_false]
      rw [show specSegments current_dir = (splitSlash (lstripSlash current_dir)).filter
            (fun p => p ≠ []) from (filter_splitSlash_lstrip current_dir).symm]

/-- C2: path resolution follows the spec's stack algorithm exactly:
absolute inputs start from an empty stack, relative inputs from the
current directory's segments; empty segments and `.` are skipped, `..`
pops and clamps at root, other segments are pushed literally; the result
is `/` for an empty stack, else `/` followed by the joined segments. The
four example resolutions of spec §8 hold. -/
theorem c2_make_abs_path_follows_spec :
    (∀ current_dir path, makeAbsPath current_dir path = specResolve current_dir path) ∧
    makeAbsPath (pys "/a/b") (pys "..") = pys "/a" ∧
    makeAbsPath (pys "/") (pys "..") = pys "/" ∧
    makeAbsPath (pys "/a") (pys "./x") = pys "/a/x" ∧
    (∀ current_dir, makeAbsPath current_dir (pys "/x/../y") = pys "/y") :=
  ⟨makeAbsPath_eq_specResolve, by decide, by decide, by decide, fun _ => by rfl⟩

/-! ## Insertion lemmas for the conflict / overwrite / base64 claims -/

theorem insertParts_file_bad : ∀ (parts : List PyStr) (node : VfsNode)
    (b bad raw : PyStr) (e : B64Error) (t2 : VfsNode), parts ≠ [] →
    b64decodeStr bad = .error e →
    insertParts node parts (pys "file") b raw = .ok t2 →
    insertParts node parts (pys "file") bad raw = .error (.invalidBase64 raw e)
  | [], _, _, _, _, _, _, hne, _, _ => absurd rfl hne
  | [leaf], node, b, bad, raw, e, t2, _, hbad, _ => by
    simp only [insertParts, if_neg (show ¬(pys "file" = pys "dir") from by decide),
      if_pos (show pys "file" = pys "file" from rfl), hbad]
    simp
  | p :: q :: rest, node, b, bad, raw, e, t2, _, hbad, hok => by
    simp only [insertParts] at hok ⊢
    cases hl : lookupChild node.children p with
    | some c =>
      simp only [hl] at hok ⊢
      by_cases hd : c.is_dir = true
      · simp only [if_pos hd] at hok ⊢
        cases hi : insertParts c (q :: rest) (pys "file") b raw with
        | ok c2 =>
          rw [insertParts_file_bad (q :: rest) c b bad raw e c2 (by simp) hbad hi]
        | error e2 => simp only [hi] at hok; exact Except.noConfusion hok
      · simp only [if_neg hd] at hok
        exact Except.noConfusion hok
    | none =>
      simp only [hl] at hok ⊢
      cases hi : insertParts (emptyDirNamed p) (q :: rest) (pys "file") b raw with
      | ok c2 =>
        rw [insertParts_file_bad (q :: rest) (emptyDirNamed p) b bad raw e c2 (by simp) hbad hi]
      | error e2 => simp only [hi] at hok; exact Except.noConfusion hok

theorem insertParts_dir_content : ∀ (parts : List PyStr) (node : VfsNode) (c1 c2 raw : PyStr),
    insertParts node parts (pys "dir") c1 raw = insertParts node parts (pys "dir") c2 raw
  | [], _, _, _, _ => rfl
  | [_], _, _, _, _ => rfl
  | p :: q :: rest, node, c1, c2, raw => by
    simp only [insertParts]
    cases hl : lookupChild node.children p with
    | some c =>
      simp only [hl]
      by_cases hd : c.is_dir = true
      · simp only [if_pos hd, insertParts_dir_content (q :: rest) c c1 c2 raw]
      · simp only [if_neg hd]
    | none =>
      simp only [hl, insertParts_dir_content (q :: rest) (emptyDirNamed p) c1 c2 raw]

/-- C6: for a `file` row, invalid base64 content turns any otherwise
successful insertion into a `LoadError` naming the raw path and the
decode failure; for a `dir` row the `content_base64` field is ignored
entirely. -/
theorem c6_base64_contract :
    (∀ (root : VfsNode) (raw b bad : PyStr) (e : B64Error) (t2 : VfsNode),
      b64decodeStr bad = .error e →
      insertRow root raw (pys "file") b = .ok t2 →
      insertRow root raw (pys "file") bad = .error (.invalidBase64 raw e)) ∧
    (∀ (root : VfsNode) (raw c1 c2 : PyStr),
      insertRow root raw (pys "dir") c1 = insertRow root raw (pys "dir") c2) := by
  constructor
  · intro root raw b bad e t2 hbad hok
    unfold insertRow at hok ⊢
    by_cases h1 : startsWithSlash raw = false
    · rw [if_pos h1] at hok; exact absurd hok (by simp)
    · rw [if_neg h1] at hok ⊢
      by_cases h2 : raw = pys "/"
      · rw [if_pos h2, if_neg (by decide)] at hok
        exact absurd hok (by simp)
      · rw [if_neg h2] at hok ⊢
        by_cases h3 : (splitSlash (lstripSlash raw)).filter (fun p => p ≠ []) = []
        · simp only [h3, if_pos rfl] at hok
          exact absurd hok (by simp)
        · simp only [if_neg h3] at hok ⊢
          exact insertParts_file_bad _ root b bad raw e t2 h3 hbad hok
  · intro root raw c1 c2
    unfold insertRow
    by_cases h1 : startsWithSlash raw = false
    · rw [if_pos h1, if_pos h1]
    · rw [if_neg h1, if_neg h1]
      by_cases h2 : raw = pys "/"
      · rw [if_pos h2, if_pos h2]
      · rw [if_neg h2, if_neg h2]
        by_cases h3 : (splitSlash (lstripSlash raw)).filter (fun p => p ≠ []) = []
        · rw [if_pos h3, if_pos h3]
        · simp only [if_neg h3]
          exact insertParts_dir_content _ root c1 c2 raw

/-- Witness for C6 at a concrete input: on `/a`, content `QQ==` inserts a
file successfully, content `a` (one stray base64 character) fails naming
the path, and two `dir` rows with different contents agree. -/
theorem c6_base64_contract_witness :
    b64decodeStr (pys "a") = .error .oneExtra ∧
    insertRow freshRoot (pys "/a") (pys "file") (pys "QQ==") =
      .ok (.mk (pys "/") true [(pys "a", .mk (pys "a") false [] [65])] []) ∧
    insertRow freshRoot (pys "/a") (pys "file") (pys "a") =
      .error (.invalidBase64 (pys "/a") .oneExtra) ∧
    insertRow freshRoot (pys "/a") (pys "dir") (pys "x") =
      insertRow freshRoot (pys "/a") (pys "dir") (pys "y") :=
  ⟨by rfl, by rfl,
   c6_base64_contract.1 freshRoot (pys "/a") (pys "QQ==") (pys "a") .oneExtra
     (.mk (pys "/") true [(pys "a", .mk (pys "a") false [] [65])] []) (by rfl) (by rfl),
   c6_base64_contract.2 freshRoot (pys "/a") (pys "x") (pys "y")⟩

/-- C7: a header missing any of `path`, `type`, `content_base64` makes
deserialization fail with `LoadError` whatever the data rows are, so no
row is ever processed. -/
theorem c7_header_check (header : List PyStr) (rows : List (List PyStr))
    (hmiss : pys "path" ∉ header ∨ pys "type" ∉ header ∨ pys "content_base64" ∉ header) :
    fromCsvOutput (header :: rows) = .error .invalidHeader := by
  show fromCsvRows header rows = _
  unfold fromCsvRows
  rw [if_neg]
  unfold headerOk
  rcases hmiss with h | h | h <;> simp [h]

/-- Witness for C7: dropping `content_base64` from the header fails even
with a data row present. -/
theorem c7_header_check_witness :
    (pys "path" ∉ [pys "path", pys "type"] ∨ pys "type" ∉ [pys "path", pys "type"] ∨
      pys "content_base64" ∉ [pys "path", pys "type"]) ∧
    fromCsvOutput ([pys "path", pys "type"] :: [[pys "/a", pys "dir"]]) =
      .error .invalidHeader :=
  ⟨by decide,
   c7_header_check [pys "path", pys "type"] [[pys "/a", pys "dir"]] (by decide)⟩

/-- A parent directory with one directory child `d` and one file child
`f`, used by witnesses. -/
def egNode : VfsNode :=
  .mk (pys "p") true
    [(pys "d", .mk (pys "d") true [] []),
     (pys "f", .mk (pys "f") false [] [65])] []

/-- C5: during insertion of a non-root row, every intermediate segment is
walked through ensure-or-create: a missing intermediate directory is
created, an existing directory is reused, and an existing *file* child at
an intermediate segment aborts the load with a path-conflict `LoadError`;
in particular the CSV `(/a,file,QQ==)` then `(/a/b,dir,)` fails. -/
theorem c5_intermediate_segments :
    (∀ (node : VfsNode) (n : PyStr) (rest : List PyStr) (ty cb raw : PyStr),
      rest ≠ [] → lookupChild node.children n = none →
      insertParts node (n :: rest) ty cb raw =
        match insertParts (emptyDirNamed n) rest ty cb raw with
        | .ok c2 => .ok (node.withChildren (setChild node.children n c2))
        | .error e => .error e) ∧
    (∀ (node : VfsNode) (n : PyStr) (rest : List PyStr) (ty cb raw : PyStr) (d : VfsNode),
      rest ≠ [] → lookupChild node.children n = some d → d.is_dir = true →
      insertParts node (n :: rest) ty cb raw =
        match insertParts d rest ty cb raw with
        | .ok c2 => .ok (node.withChildren (setChild node.children n c2))
        | .error e => .error e) ∧
    (∀ (node : VfsNode) (n : PyStr) (rest : List PyStr) (ty cb raw : PyStr) (f : VfsNode),
      rest ≠ [] → lookupChild node.children n = some f → f.is_dir = false →
      insertParts node (n :: rest) ty cb raw = .error (.pathConflict n)) ∧
    fromCsvOutput [csvHeaderRow, [pys "/a", pys "file", pys "QQ=="], [pys "/a/b", pys "dir", []]] =
      .error (.pathConflict (pys "a")) := by
  refine ⟨?_, ?_, ?_, by rfl⟩
  · intro node n rest ty cb raw hne hl
    obtain ⟨q, rs, rfl⟩ := List.exists_cons_of_ne_nil hne
    simp only [insertParts, hl]
  · intro node n rest ty cb raw d hne hl hd
    obtain ⟨q, rs, rfl⟩ := List.exists_cons_of_ne_nil hne
    simp only [insertParts, hl, if_pos hd]
  · intro node n rest ty cb raw f hne hl hd
    obtain ⟨q, rs, rfl⟩ := List.exists_cons_of_ne_nil hne
    simp only [insertParts, hl, if_neg (by simp [hd] : ¬f.is_dir = true)]

/-- Witness for C5 at concrete inputs on `egNode`: a fresh intermediate
`x` is created, the existing directory `d` is reused, and the existing
file `f` used as an intermediate directory is a path conflict. -/
theorem c5_intermediate_segments_witness :
    lookupChild egNode.children (pys "x") = none ∧
    insertParts egNode [pys "x", pys "y"] (pys "dir") [] (pys "/p/x/y") =
      .ok (egNode.withChildren (egNode.children ++
        [(pys "x", .mk (pys "x") true [(pys "y", .mk (pys "y") true [] [])] [])])) ∧
    insertParts egNode [pys "d", pys "y"] (pys "dir") [] (pys "/p/d/y") =
      .ok (egNode.withChildren
        [(pys "d", .mk (pys "d") true [(pys "y", .mk (pys "y") true [] [])] []),
         (pys "f", .mk (pys "f") false [] [65])]) ∧
    insertParts egNode [pys "f", pys "y"] (pys "dir") [] (pys "/p/f/y") =
      .error (.pathConflict (pys "f")) :=
  ⟨rfl,
   (c5_intermediate_segments.1 egNode (pys "x") [pys "y"] (pys "dir") [] (pys "/p/x/y")
     (by simp) rfl).trans (by rfl),
   (c5_intermediate_segments.2.1 egNode (pys "d") [pys "y"] (pys "dir") [] (pys "/p/d/y")
     (.mk (pys "d") true [] []) (by simp) rfl rfl).trans (by rfl),
   c5_intermediate_segments.2.2.1 egNode (pys "f") [pys "y"] (pys "dir") [] (pys "/p/f/y")
     (.mk (pys "f") false [] [65]) (by simp) rfl rfl⟩

/-- C10: a `dir` row whose final segment already exists as a file child
fails with the path-conflict `LoadError` — the conflict is detected at the
final segment too, not only at intermediate ones; in particular the CSV
`(/a,file,QQ==)` then `(/a,dir,)` fails. -/
theorem c10_dir_row_on_file_leaf :
    (∀ (node : VfsNode) (n : PyStr) (cb raw : PyStr) (f : VfsNode),
      lookupChild node.children n = some f → f.is_dir = false →
      insertParts node [n] (pys "dir") cb raw = .error (.pathConflict n)) ∧
    fromCsvOutput [csvHeaderRow, [pys "/a", pys "file", pys "QQ=="], [pys "/a", pys "dir", []]] =
      .error (.pathConflict (pys "a")) := by
  refine ⟨?_, by rfl⟩
  intro node n cb raw f hl hd
  simp [insertParts, ensureChildDirF, hl, hd]

/-- Witness for C10: a `dir` row ending at the file child `f` of `egNode`
conflicts. -/
theorem c10_dir_row_on_file_leaf_witness :
    lookupChild egNode.children (pys "f") = some (.mk (pys "f") false [] [65]) ∧
    insertParts egNode [pys "f"] (pys "dir") [] (pys "/p/f") =
      .error (.pathConflict (pys "f")) :=
  ⟨rfl,
   c10_dir_row_on_file_leaf.1 egNode (pys "f") [] (pys "/p/f")
     (.mk (pys "f") false [] [65]) rfl rfl⟩

/-- C9: a `file` row whose final segment names an existing directory child
replaces that child — the whole subtree — by the new file node, raising no
error: insertion succeeds unconditionally, the child at that key becomes
the file, nothing is reachable below it any more, and all other children
are untouched. -/
theorem c9_file_row_replaces_dir :
    ∀ (node : VfsNode) (n : PyStr) (cb raw : PyStr) (bs : Bytes) (d : VfsNode),
      b64decodeStr cb = .ok bs →
      lookupChild node.children n = some d → d.is_dir = true →
      insertParts node [n] (pys "file") cb raw =
        .ok (node.withChildren (setChild node.children n (.mk n false [] bs))) ∧
      lookupChild (setChild node.children n (.mk n false [] bs)) n =
        some (.mk n false [] bs) ∧
      (∀ (s : PyStr) (rest : List PyStr),
        walkSegs (.mk n false [] bs) (s :: rest) = none) ∧
      (∀ m : PyStr, m ≠ n →
        lookupChild (setChild node.children n (.mk n false [] bs)) m =
          lookupChild node.children m) := by
  intro node n cb raw bs d hdec hl hd
  refine ⟨?_, lookupChild_setChild_self _ _ _, fun s rest => rfl,
    fun m hm => lookupChild_setChild_ne _ _ _ _ hm⟩
  simp only [insertParts, if_neg (show ¬(pys "file" = pys "dir") from by decide),
    if_pos (show pys "file" = pys "file" from rfl), hdec]
  simp [setFileF]

/-- Witness for C9: overwriting the directory child `d` of a parent whose
`d` contains a whole subtree. -/
theorem c9_file_row_replaces_dir_witness :
    (let parent : VfsNode := .mk (pys "p") true
      [(pys "d", .mk (pys "d") true [(pys "sub", .mk (pys "sub") false [] [66])] []),
       (pys "f", .mk (pys "f") false [] [65])] []
     insertParts parent [pys "d"] (pys "file") (pys "QQ==") (pys "/p/d") =
       .ok (parent.withChildren (setChild parent.children (pys "d")
         (.mk (pys "d") false [] [65]))) ∧
     lookupChild (setChild parent.children (pys "d") (.mk (pys "d") false [] [65])) (pys "d") =
       some (.mk (pys "d") false [] [65]) ∧
     walkSegs (.mk (pys "d") false [] ([65] : Bytes)) [pys "sub"] = none) := by
  have h := c9_file_row_replaces_dir
    (VfsNode.mk (pys "p") true
      [(pys "d", .mk (pys "d") true [(pys "sub", .mk (pys "sub") false [] [66])] []),
       (pys "f", .mk (pys "f") false [] [65])] [])
    (pys "d") (pys "QQ==") (pys "/p/d") [65]
    (.mk (pys "d") true [(pys "sub", .mk (pys "sub") false [] [66])] [])
    (by rfl) rfl rfl
  exact ⟨h.1, h.2.1, h.2.2.1 (pys "sub") []⟩

/-- C3: `find_node` walks segments through children lookups and yields an
`Option` (not-found rather than an exception): `/` always resolves to the
root, a remaining segment at a file node or a missing child yields `none`;
on the sample CSV, `/docs/readme.txt` is a file whose bytes decode to
`Hello, World!` and `/nope` is not found. -/
theorem c3_find_node :
    (∀ root : VfsNode, findNode root (pys "/") = some root) ∧
    (∀ (nd : VfsNode) (segs : List PyStr), nd.is_dir = false → segs ≠ [] →
      walkSegs nd segs = none) ∧
    (∀ (nd : VfsNode) (s : PyStr) (rest : List PyStr), nd.is_dir = true →
      lookupChild nd.children s = none → walkSegs nd (s :: rest) = none) ∧
    fromCsvOutput sampleCsv = .ok sampleTree ∧
    (∃ m, findNode sampleTree (pys "/docs/readme.txt") = some m ∧
      m.is_dir = false ∧ m.content = (pys "Hello, World!").map Char.toNat) ∧
    findNode sampleTree (pys "/nope") = none := by
  refine ⟨fun root => rfl, ?_, ?_, by rfl,
    ⟨.mk (pys "readme.txt") false [] ((pys "Hello, World!").map Char.toNat),
      by rfl, rfl, rfl⟩, by rfl⟩
  · intro nd segs hd hne
    obtain ⟨s, rest, rfl⟩ := List.exists_cons_of_ne_nil hne
    cases nd with
    | mk nm d cs ct =>
      simp only [VfsNode.is_dir] at hd
      subst hd
      rfl
  · intro nd s rest hd hl
    simp [walkSegs, hd, hl]

/-- Witness for C3's conditional clauses: a file node rejects any further
segment, and a directory without the requested child yields not-found. -/
theorem c3_find_node_witness :
    walkSegs (.mk (pys "f") false [] ([65] : Bytes)) [pys "x"] = none ∧
    walkSegs egNode [pys "zz"] = none :=
  ⟨c3_find_node.2.1 (.mk (pys "f") false [] [65]) [pys "x"] rfl (by simp),
   c3_find_node.2.2.1 egNode (pys "zz") [] rfl rfl⟩

/-- C4: `compute_size` signals `NotFoundError` exactly when `find_node`
misses, a file's size is its content length, a directory's size is the sum
of its children's recursive sizes (zero when empty); on the tree holding
only the 13-byte `/docs/readme.txt` and the empty `/docs/empty`, the sizes
of `/`, `/docs`, `/docs/empty` are 13, 13 and 0. -/
theorem c4_compute_size :
    (∀ (root : VfsNode) (path : PyStr), findNode root path = none →
      computeSize root path = .error .notFound) ∧
    (∀ (root : VfsNode) (path : PyStr) (m : VfsNode), findNode root path = some m →
      computeSize root path = .ok (nodeSize m)) ∧
    (∀ (nm : PyStr) (cs : List (PyStr × VfsNode)) (ct : Bytes),
      nodeSize (.mk nm false cs ct) = ct.length) ∧
    (∀ (nm : PyStr) (cs : List (PyStr × VfsNode)) (ct : Bytes),
      nodeSize (.mk nm true cs ct) = childrenSize cs) ∧
    childrenSize [] = 0 ∧
    (∀ (k : PyStr) (c : VfsNode) (rest : List (PyStr × VfsNode)),
      childrenSize ((k, c) :: rest) = nodeSize c + childrenSize rest) ∧
    computeSize sizeTree (pys "/") = .ok 13 ∧
    computeSize sizeTree (pys "/docs") = .ok 13 ∧
    computeSize sizeTree (pys "/docs/empty") = .ok 0 := by
  refine ⟨?_, ?_, fun nm cs ct => rfl, fun nm cs ct => rfl, rfl,
    fun k c rest => rfl, by rfl, by rfl, by rfl⟩
  · intro root path h
    simp [computeSize, h]
  · intro root path m h
    simp [computeSize, h]

/-! ## Serialization refinement (C8): the spec-worded writer -/

/-- Spec §4.2: a child's path joins the parent's absolute path and the
child's name with exactly one separator; a child of root is `/` plus the
name. -/
def specJoinPath (parent n : PyStr) : PyStr :=
  if parent = pys "/" then '/' :: n else parent ++ '/' :: n

/-- Fueled body of the serialization exactly as the spec words it: for a
directory emit `(path, dir, <empty>)` then recurse into children sorted
lexicographically by name; for a file emit `(path, file, base64)`. -/
def specRowsF : Nat → VfsNode → PyStr → List (List PyStr)
  | 0, _, _ => []
  | fuel + 1, node, p =>
    if node.is_dir then
      [p, pys "dir", []] ::
        (sortPairs node.children).flatMap
          (fun kc => specRowsF fuel kc.2 (specJoinPath p kc.1))
    else [[p, pys "file", b64encodeBytes node.content]]

/-- The spec's rows for a node at a path. -/
def specNodeRows (node : VfsNode) (p : PyStr) : List (List PyStr) :=
  specRowsF (weightN node) node p

/-- Spec §4.2 output: the header row, the root row `(/, dir, <empty>)`
written first, then the root's children depth-first. -/
def specCsvOutput (root : VfsNode) : List (List PyStr) :=
  csvHeaderRow :: [pys "/", pys "dir", []] ::
    (sortPairs root.children).flatMap
      (fun kc => specNodeRows kc.2 (specJoinPath (pys "/") kc.1))

theorem specRowsF_fuel :
    ∀ (fuel : Nat) (node : VfsNode) (p : PyStr), weightN node ≤ fuel →
      specRowsF fuel node p = specRowsF (weightN node) node p := by
  intro fuel
  induction fuel using Nat.strong_induction_on with
  | _ fuel ih =>
    intro node p hle
    cases node with
    | mk n d cs ct =>
      have hw : weightN (VfsNode.mk n d cs ct) = weightL cs + 1 := rfl
      rw [hw] at hle ⊢
      obtain ⟨f, rfl⟩ : ∃ f, fuel = f + 1 := ⟨fuel - 1, by omega⟩
      show specRowsF (f + 1) _ p = specRowsF (weightL cs + 1) _ p
      cases d with
      | false => rfl
      | true =>
        have hun : ∀ g : Nat, specRowsF (g + 1) (VfsNode.mk n true cs ct) p =
            [p, pys "dir", []] ::
              (sortPairs cs).flatMap (fun kc => specRowsF g kc.2 (specJoinPath p kc.1)) :=
          fun g => rfl
        rw [hun f, hun (weightL cs)]
        refine congrArg _ (List.flatMap_congr (fun kc hkc => ?_))
        obtain ⟨k, c⟩ := kc
        have hmem : (k, c) ∈ cs := mem_sortPairs.mp hkc
        have hc : weightN c < weightL cs + 1 := weightN_child_lt hmem
        rw [ih f (by omega) c _ (by omega), ih (weightL cs) (by omega) c _ (by omega)]

theorem specNodeRows_dir (n : PyStr) (cs : List (PyStr × VfsNode)) (ct : Bytes) (p : PyStr) :
    specNodeRows (.mk n true cs ct) p =
      [p, pys "dir", []] ::
        (sortPairs cs).flatMap (fun kc => specNodeRows kc.2 (specJoinPath p kc.1)) := by
  show specRowsF (weightL cs + 1) _ p = _
  rw [show specRowsF (weightL cs + 1) (VfsNode.mk n true cs ct) p =
      [p, pys "dir", []] ::
        (sortPairs cs).flatMap (fun kc => specRowsF (weightL cs) kc.2 (specJoinPath p kc.1))
    from rfl]
  refine congrArg _ (List.flatMap_congr (fun kc hkc => ?_))
  obtain ⟨k, c⟩ := kc
  have hmem : (k, c) ∈ cs := mem_sortPairs.mp hkc
  exact specRowsF_fuel (weightL cs) c _ (by have := weightN_child_lt hmem; omega)

theorem specNodeRows_file (n : PyStr) (cs : List (PyStr × VfsNode)) (ct : Bytes) (p : PyStr) :
    specNodeRows (.mk n false cs ct) p = [[p, pys "file", b64encodeBytes ct]] := rfl

/-! ## Well-formedness projections -/

theorem wfNode_dir_parts {n : PyStr} {cs : List (PyStr × VfsNode)} {ct : Bytes}
    (h : wfNode (.mk n true cs ct) = true) :
    ct = [] ∧ keysNodup cs = true ∧ wfChildren cs = true := by
  have h2 : (decide (ct = []) && keysNodup cs && wfChildren cs) = true := h
  simp only [Bool.and_eq_true, decide_eq_true_eq] at h2
  exact ⟨h2.1.1, h2.1.2, h2.2⟩

theorem wfNode_file_parts {n : PyStr} {cs : List (PyStr × VfsNode)} {ct : Bytes}
    (h : wfNode (.mk n false cs ct) = true) :
    cs = [] ∧ ∀ b ∈ ct, b < 256 := by
  have h2 : (cs.isEmpty && ct.all (fun b => decide (b < 256))) = true := h
  simp only [Bool.and_eq_true, List.isEmpty_iff, List.all_eq_true,
    decide_eq_true_eq] at h2
  exact ⟨h2.1, h2.2⟩

theorem wfChildren_mem : ∀ {cs : List (PyStr × VfsNode)}, wfChildren cs = true →
    ∀ {k : PyStr} {c : VfsNode}, (k, c) ∈ cs →
      validName k = true ∧ k = c.name ∧ wfNode c = true := by
  intro cs h k c hm
  induction cs with
  | nil => cases hm
  | cons hd tl ih =>
    obtain ⟨k2, c2⟩ := hd
    simp only [wfChildren, Bool.and_eq_true, decide_eq_true_eq] at h
    rcases List.mem_cons.mp hm with h1 | h2
    · obtain ⟨rfl, rfl⟩ := Prod.mk.injEq .. |>.mp h1
      exact ⟨h.1.1.1, h.1.1.2, h.1.2⟩
    · exact ih h.2 h2

theorem validName_parts {k : PyStr} (h : validName k = true) : k ≠ [] ∧ '/' ∉ k := by
  simp only [validName, Bool.and_eq_true, decide_eq_true_eq] at h
  exact h

theorem trailOkChildren_mem : ∀ {cs : List (PyStr × VfsNode)}, trailOkChildren cs = true →
    ∀ {k : PyStr} {c : VfsNode}, (k, c) ∈ cs →
      nameTrailOk k = true ∧ trailOkNode c = true := by
  intro cs h k c hm
  induction cs with
  | nil => cases hm
  | cons hd tl ih =>
    obtain ⟨k2, c2⟩ := hd
    simp only [trailOkChildren, Bool.and_eq_true] at h
    rcases List.mem_cons.mp hm with h1 | h2
    · obtain ⟨rfl, rfl⟩ := Prod.mk.injEq .. |>.mp h1
      exact ⟨h.1.1, h.1.2⟩
    · exact ih h.2 h2

/-! ## Lexicographic order: totality and transitivity -/

theorem lexLe_total : ∀ a b : PyStr, lexLe a b = true ∨ lexLe b a = true
  | [], b => .inl rfl
  | a :: as, [] => .inr rfl
  | a :: as, b :: bs => by
    by_cases h : a = b
    · subst h
      simp only [lexLe, if_pos rfl]
      exact lexLe_total as bs
    · simp only [lexLe, if_neg h, if_neg (Ne.symm h)]
      rcases lt_or_gt_of_ne h with hlt | hgt
      · exact .inl (by simpa using hlt)
      · exact .inr (by simpa using hgt)

theorem lexLe_trans : ∀ a b c : PyStr,
    lexLe a b = true → lexLe b c = true → lexLe a c = true
  | [], _, _, _, _ => rfl
  | a :: as, [], c, hab, _ => by simp [lexLe] at hab
  | a :: as, b :: bs, [], _, hbc => by simp [lexLe] at hbc
  | a :: as, b :: bs, c :: cs, hab, hbc => by
    by_cases h1 : a = b
    · subst h1
      simp only [lexLe, if_pos rfl] at hab
      by_cases h2 : a = c
      · subst h2
        simp only [lexLe, if_pos rfl] at hbc ⊢
        exact lexLe_trans as bs cs hab hbc
      · simp only [lexLe, if_neg h2] at hbc ⊢
        exact hbc
    · simp only [lexLe, if_neg h1] at hab
      by_cases h2 : b = c
      · subst h2
        simp only [lexLe, if_neg h1]
        exact hab
      · simp only [lexLe, if_neg h2] at hbc
        have hac : a < c := lt_trans (by simpa using hab) (by simpa using hbc)
        simp only [lexLe, if_neg (ne_of_lt hac)]
        simpa using hac

instance : IsTotal (PyStr × VfsNode) (fun a b => lexLe a.1 b.1 = true) :=
  ⟨fun a b => lexLe_total a.1 b.1⟩

instance : IsTrans (PyStr × VfsNode) (fun a b => lexLe a.1 b.1 = true) :=
  ⟨fun _ _ _ hab hbc => lexLe_trans _ _ _ hab hbc⟩

theorem sortPairs_sorted (cs : List (PyStr × VfsNode)) :
    (sortPairs cs).Sorted (fun a b => lexLe a.1 b.1 = true) :=
  List.sorted_insertionSort _ cs

theorem sortPairs_perm (cs : List (PyStr × VfsNode)) : (sortPairs cs).Perm cs :=
  List.perm_insertionSort _ cs

/-! ## C8: the code's writer equals the spec's writer -/

theorem writeNodeRows_eq_specNodeRows :
    ∀ t : VfsNode, ∀ cur : PyStr, cur ≠ pys "/" → wfNode t = true →
      writeNodeRows t cur = specNodeRows t cur := by
  refine nodeInd _ (fun n d cs ct ih => ?_)
  intro cur hcur hwf
  cases d with
  | false =>
    rw [writeNodeRows_file, specNodeRows_file, if_neg hcur]
  | true =>
    rw [writeNodeRows_dir, specNodeRows_dir]
    congr 1
    refine List.flatMap_congr (fun kc hkc => ?_)
    obtain ⟨k, c⟩ := kc
    have hmem : (k, c) ∈ cs := mem_sortPairs.mp hkc
    obtain ⟨hvk, _, hwc⟩ := wfChildren_mem (wfNode_dir_parts hwf).2.2 hmem
    have hkne : k ≠ [] := (validName_parts hvk).1
    have hne2 : childPathOf cur k ≠ pys "/" := by
      unfold childPathOf
      split
      · intro hx
        exact hkne (by simpa using congrArg List.tail hx)
      · intro hx
        have hlen := congrArg List.length hx
        rw [show (pys "/").length = 1 from rfl] at hlen
        simp only [List.length_append, List.length_cons] at hlen
        exact hkne (List.length_eq_zero.mp (by omega))
    rw [ih k c hmem _ hne2 hwc]
    rfl

/-- C8: `to_csv` writes the header row, then the root row
`(/, dir, <empty>)` first, then the remaining nodes depth-first with each
directory's children visited in ascending lexicographic order of name and
each child path formed by joining the parent path and the name with
exactly one separator (a child of root is `/` plus the name): the code's
writer equals the spec's writer on every well-formed tree, `sorted` really
sorts (it permutes the children into lexicographically ordered position),
and the output is a function of the tree alone, so two calls on the same
unmodified tree are byte-identical. -/
theorem c8_serialization_order :
    (∀ root : VfsNode, wfNode root = true → root.is_dir = true →
      toCsvOutput root = specCsvOutput root) ∧
    (∀ cs, (sortPairs cs).Perm cs) ∧
    (∀ cs, (sortPairs cs).Sorted (fun a b => lexLe a.1 b.1 = true)) ∧
    (∀ r1 r2 : VfsNode, r1 = r2 → toCsvOutput r1 = toCsvOutput r2) := by
  refine ⟨?_, sortPairs_perm, sortPairs_sorted, fun r1 r2 h => by rw [h]⟩
  intro root hwf hdir
  cases root with
  | mk n d cs ct =>
    simp only [VfsNode.is_dir] at hdir
    subst hdir
    unfold toCsvOutput specCsvOutput
    congr 1
    rw [writeNodeRows_dir]
    congr 1
    refine List.flatMap_congr (fun kc hkc => ?_)
    obtain ⟨k, c⟩ := kc
    have hmem : (k, c) ∈ cs := mem_sortPairs.mp hkc
    obtain ⟨hvk, _, hwc⟩ := wfChildren_mem (wfNode_dir_parts hwf).2.2 hmem
    have hkne : k ≠ [] := (validName_parts hvk).1
    have hne2 : childPathOf (pys "/") k ≠ pys "/" := by
      unfold childPathOf
      rw [if_pos rfl]
      intro hx
      exact hkne (by simpa using congrArg List.tail hx)
    exact writeNodeRows_eq_specNodeRows c _ hne2 hwc

/-- Witness for C8 on the sample tree. -/
theorem c8_serialization_order_witness :
    wfNode sampleTree = true ∧ sampleTree.is_dir = true ∧
    toCsvOutput sampleTree = specCsvOutput sampleTree :=
  ⟨by decide, rfl, c8_serialization_order.1 sampleTree (by decide) rfl⟩

/-! ## Base64 round trip -/

theorem alphaIdx_b64char : ∀ v : Nat, v < 64 → alphaIdx (b64char v) = some v := by decide

theorem b64char_ne_pad : ∀ v : Nat, v < 64 → b64char v ≠ '=' := by decide

theorem b64char_ascii : ∀ v : Nat, v < 64 → (b64char v).toNat ≤ 127 := by decide

theorem b64loop_cons_val {c : Char} {rest : List Char} {q l p v : Nat}
    (hc : c ≠ '=') (hv : alphaIdx c = some v) (hq : q ≠ 3) :
    b64loop (c :: rest) q l p = b64loop rest (q + 1) (l * 64 + v) 0 := by
  simp [b64loop, hc, hv, hq]

theorem b64loop_cons_val3 {c : Char} {rest : List Char} {l p v : Nat}
    (hc : c ≠ '=') (hv : alphaIdx c = some v) :
    b64loop (c :: rest) 3 l p =
      match b64loop rest 0 0 0 with
      | .ok tl => .ok ((l * 64 + v) / 65536 :: (l * 64 + v) / 256 % 256 ::
          (l * 64 + v) % 256 :: tl)
      | .error e => .error e := by
  simp [b64loop, hc, hv]

theorem b64loop_pad_2_0 {rest : List Char} {l : Nat} :
    b64loop ('=' :: rest) 2 l 0 = b64loop rest 2 l 1 := by
  simp [b64loop]

theorem b64loop_pad_2_1 {rest : List Char} {l : Nat} :
    b64loop ('=' :: rest) 2 l 1 = .ok [l / 16] := by
  simp [b64loop]

theorem b64loop_pad_3 {rest : List Char} {l p : Nat} :
    b64loop ('=' :: rest) 3 l p = .ok [l / 1024, l / 4 % 256] := by
  have h4 : 4 ≤ 3 + (p + 1) := by omega
  simp [b64loop, h4]

theorem b64loop_encode : ∀ bs : Bytes, (∀ b ∈ bs, b < 256) →
    b64loop (b64encodeBytes bs) 0 0 0 = .ok bs
  | [], _ => rfl
  | [a], h => by
    have ha : a < 256 := h a (by simp)
    have h1 : a / 4 < 64 := by omega
    have h2 : a % 4 * 16 < 64 := by omega
    rw [show b64encodeBytes [a] = [b64char (a / 4), b64char (a % 4 * 16), '=', '='] from rfl]
    rw [b64loop_cons_val (b64char_ne_pad _ h1) (alphaIdx_b64char _ h1) (by omega)]
    rw [b64loop_cons_val (b64char_ne_pad _ h2) (alphaIdx_b64char _ h2) (by omega)]
    rw [b64loop_pad_2_0, b64loop_pad_2_1]
    congr 1
    congr 1
    omega
  | [a, b], h => by
    have ha : a < 256 := h a (by simp)
    have hb : b < 256 := h b (by simp)
    have h1 : a / 4 < 64 := by omega
    have h2 : a % 4 * 16 + b / 16 < 64 := by omega
    have h3 : b % 16 * 4 < 64 := by omega
    rw [show b64encodeBytes [a, b] =
      [b64char (a / 4), b64char (a % 4 * 16 + b / 16), b64char (b % 16 * 4), '='] from rfl]
    rw [b64loop_cons_val (b64char_ne_pad _ h1) (alphaIdx_b64char _ h1) (by omega)]
    rw [b64loop_cons_val (b64char_ne_pad _ h2) (alphaIdx_b64char _ h2) (by omega)]
    rw [b64loop_cons_val (b64char_ne_pad _ h3) (alphaIdx_b64char _ h3) (by omega)]
    rw [b64loop_pad_3]
    congr 1
    congr 1
    · omega
    · congr 1
      omega
  | a :: b :: c :: rest, h => by
    have ha : a < 256 := h a (by simp)
    have hb : b < 256 := h b (by simp)
    have hc : c < 256 := h c (by simp)
    have h1 : a / 4 < 64 := by omega
    have h2 : a % 4 * 16 + b / 16 < 64 := by omega
    have h3 : b % 16 * 4 + c / 64 < 64 := by omega
    have h4 : c % 64 < 64 := by omega
    rw [show b64encodeBytes (a :: b :: c :: rest) =
      b64char (a / 4) :: b64char (a % 4 * 16 + b / 16) ::
        b64char (b % 16 * 4 + c / 64) :: b64char (c % 64) :: b64encodeBytes rest from rfl]
    rw [b64loop_cons_val (b64char_ne_pad _ h1) (alphaIdx_b64char _ h1) (by omega)]
    rw [b64loop_cons_val (b64char_ne_pad _ h2) (alphaIdx_b64char _ h2) (by omega)]
    rw [b64loop_cons_val (b64char_ne_pad _ h3) (alphaIdx_b64char _ h3) (by omega)]
    rw [b64loop_cons_val3 (b64char_ne_pad _ h4) (alphaIdx_b64char _ h4)]
    rw [b64loop_encode rest (fun x hx => h x (by simp [hx]))]
    show Except.ok _ = Except.ok _
    congr 1
    congr 1
    · omega
    · congr 1
      · omega
      · congr 1
        omega

theorem b64encode_ascii : ∀ bs : Bytes, (∀ b ∈ bs, b < 256) →
    (b64encodeBytes bs).all (fun c => c.toNat ≤ 127) = true
  | [], _ => rfl
  | [a], h => by
    have ha : a < 256 := h a (by simp)
    rw [show b64encodeBytes [a] = [b64char (a / 4), b64char (a % 4 * 16), '=', '='] from rfl]
    simp [List.all_eq_true]
    exact ⟨b64char_ascii _ (by omega), b64char_ascii _ (by omega)⟩
  | [a, b], h => by
    have ha : a < 256 := h a (by simp)
    have hb : b < 256 := h b (by simp)
    rw [show b64encodeBytes [a, b] =
      [b64char (a / 4), b64char (a % 4 * 16 + b / 16), b64char (b % 16 * 4), '='] from rfl]
    simp [List.all_eq_true]
    exact ⟨b64char_ascii _ (by omega), b64char_ascii _ (by omega), b64char_ascii _ (by omega)⟩
  | a :: b :: c :: rest, h => by
    have ha : a < 256 := h a (by simp)
    have hb : b < 256 := h b (by simp)
    have hc : c < 256 := h c (by simp)
    rw [show b64encodeBytes (a :: b :: c :: rest) =
      b64char (a / 4) :: b64char (a % 4 * 16 + b / 16) ::
        b64char (b % 16 * 4 + c / 64) :: b64char (c % 64) :: b64encodeBytes rest from rfl]
    have htl := b64encode_ascii rest (fun x hx => h x (by simp [hx]))
    simp only [List.all_cons, htl, Bool.and_eq_true, decide_eq_true_eq, Bool.and_true]
    exact ⟨b64char_ascii _ (by omega), b64char_ascii _ (by omega),
      b64char_ascii _ (by omega), b64char_ascii _ (by omega)⟩

/-- `b64decode ∘ b64encode` is the identity on byte sequences. -/
theorem b64_roundtrip (bs : Bytes) (h : ∀ b ∈ bs, b < 256) :
    b64decodeStr (b64encodeBytes bs) = .ok bs := by
  unfold b64decodeStr
  rw [if_pos (b64encode_ascii bs h), b64loop_encode bs h]

/-! ## Joining and re-splitting generated path strings -/

theorem relJoin_cons (n : PyStr) (rest : List PyStr) :
    relJoin (n :: rest) = n ++ (if rest = [] then [] else '/' :: relJoin rest) := by
  cases rest <;> simp [relJoin]

theorem relJoin_ne_nil {segs : List PyStr} (h0 : segs ≠ [])
    (h1 : ∀ nm ∈ segs, nm ≠ []) : relJoin segs ≠ [] := by
  obtain ⟨n, rest, rfl⟩ := List.exists_cons_of_ne_nil h0
  rw [relJoin_cons]
  have hn : n ≠ [] := h1 n (by simp)
  simp [hn]

theorem relJoin_append_single : ∀ (segs : List PyStr) (k : PyStr), segs ≠ [] →
    relJoin (segs ++ [k]) = relJoin segs ++ '/' :: k
  | [], _, h => absurd rfl h
  | [n], k, _ => by simp [relJoin]
  | n :: m :: rest, k, _ => by
    have ih := relJoin_append_single (m :: rest) k (by simp)
    show n ++ '/' :: relJoin ((m :: rest) ++ [k]) =
      (n ++ '/' :: relJoin (m :: rest)) ++ '/' :: k
    rw [ih]
    simp

theorem childPathOf_joinAbs (segs : List PyStr) (k : PyStr)
    (h1 : ∀ nm ∈ segs, nm ≠ []) :
    childPathOf (joinAbs segs) k = joinAbs (segs ++ [k]) := by
  cases hs : segs with
  | nil => rfl
  | cons n rest =>
    subst hs
    have hne : relJoin (n :: rest) ≠ [] := relJoin_ne_nil (by simp) h1
    have hroot : joinAbs (n :: rest) ≠ pys "/" := by
      unfold joinAbs
      rw [if_neg (by simp)]
      intro hx
      exact hne (by simpa using congrArg List.tail hx)
    unfold childPathOf
    rw [if_neg hroot]
    unfold joinAbs
    rw [if_neg (by simp), if_neg (by simp)]
    show ('/' :: relJoin (n :: rest)) ++ '/' :: k = '/' :: relJoin ((n :: rest) ++ [k])
    rw [relJoin_append_single (n :: rest) k (by simp)]
    simp

theorem splitSlash_no_slash : ∀ s : PyStr, '/' ∉ s → splitSlash s = [s]
  | [], _ => rfl
  | c :: rest, h => by
    have hc : c ≠ '/' := fun hx => h (by simp [hx])
    have ih := splitSlash_no_slash rest (fun hx => h (by simp [hx]))
    simp [splitSlash, hc, ih]

theorem splitSlash_append_slash : ∀ (n t : PyStr), '/' ∉ n →
    splitSlash (n ++ '/' :: t) = n :: splitSlash t
  | [], t, _ => by simp [splitSlash]
  | c :: n, t, h => by
    have hc : c ≠ '/' := fun hx => h (by simp [hx])
    have ih := splitSlash_append_slash n t (fun hx => h (by simp [hx]))
    simp [splitSlash, hc, ih]

theorem splitSlash_relJoin : ∀ segs : List PyStr, segs ≠ [] →
    (∀ nm ∈ segs, nm ≠ [] ∧ '/' ∉ nm) → splitSlash (relJoin segs) = segs
  | [], h, _ => absurd rfl h
  | [n], _, hv => by
    show splitSlash n = [n]
    exact splitSlash_no_slash n (hv n (by simp)).2
  | n :: m :: rest, _, hv => by
    have ih := splitSlash_relJoin (m :: rest) (by simp)
      (fun x hx => hv x (by simp [hx]))
    show splitSlash (n ++ '/' :: relJoin (m :: rest)) = _
    rw [splitSlash_append_slash n _ (hv n (by simp)).2, ih]

theorem lstripSlash_joinAbs (segs : List PyStr) (h0 : segs ≠ [])
    (hv : ∀ nm ∈ segs, nm ≠ [] ∧ '/' ∉ nm) :
    lstripSlash (joinAbs segs) = relJoin segs := by
  obtain ⟨n, rest, rfl⟩ := List.exists_cons_of_ne_nil h0
  obtain ⟨c0, n0, rfl⟩ := List.exists_cons_of_ne_nil (hv n (by simp)).1
  have hslash : '/' ∉ c0 :: n0 := (hv (c0 :: n0) (by simp)).2
  have hc0 : ¬((c0 : Char) = '/') := fun hx => hslash (by simp [hx])
  unfold joinAbs
  rw [if_neg (by simp)]
  unfold lstripSlash
  rw [List.dropWhile_cons, if_pos (by simp)]
  rw [relJoin_cons, List.cons_append, List.dropWhile_cons, if_neg (by simp [hc0])]

theorem parseParts_joinAbs (segs : List PyStr) (h0 : segs ≠ [])
    (hv : ∀ nm ∈ segs, nm ≠ [] ∧ '/' ∉ nm) :
    parseParts (joinAbs segs) = segs := by
  unfold parseParts
  rw [lstripSlash_joinAbs segs h0 hv, splitSlash_relJoin segs h0 hv]
  rw [List.filter_eq_self]
  intro a ha
  simpa using (hv a ha).1

theorem dropWhile_eq_self {p : Char → Bool} : ∀ {l : PyStr},
    (∀ c, l.head? = some c → p c = false) → l.dropWhile p = l := by
  intro l h
  cases l with
  | nil => rfl
  | cons c t =>
    rw [List.dropWhile_cons, if_neg (by simp [h c rfl])]

theorem pyStrip_eq_self {s : PyStr}
    (h1 : ∀ c, s.head? = some c → pyIsSpace c = false)
    (h2 : ∀ c, s.getLast? = some c → pyIsSpace c = false) : pyStrip s = s := by
  unfold pyStrip
  rw [dropWhile_eq_self h1]
  rw [dropWhile_eq_self (fun c hc => h2 c (by rwa [List.head?_reverse] at hc))]
  exact List.reverse_reverse s

theorem getLast?_append_ne {α : Type} {l1 l2 : List α} (h : l2 ≠ []) :
    (l1 ++ l2).getLast? = l2.getLast? := by
  rw [List.getLast?_append]
  cases hx : l2.getLast? with
  | some x => rfl
  | none => exact absurd (List.getLast?_eq_none_iff.mp hx) h

theorem getLast_relJoin : ∀ (segs : List PyStr) (lastNm : PyStr),
    segs.getLast? = some lastNm → (∀ nm ∈ segs, nm ≠ []) →
    (relJoin segs).getLast? = lastNm.getLast?
  | [], _, h, _ => by cases h
  | [n], lastNm, h, _ => by
    simp only [List.getLast?_singleton, Option.some.injEq] at h
    subst h
    rfl
  | n :: m :: rest, lastNm, h, hv => by
    have hlast : (m :: rest).getLast? = some lastNm := by
      rwa [List.getLast?_cons_cons] at h
    have ih := getLast_relJoin (m :: rest) lastNm hlast (fun x hx => hv x (by simp [hx]))
    have hne : relJoin (m :: rest) ≠ [] := relJoin_ne_nil (by simp) (fun x hx => hv x (by simp [hx]))
    show (n ++ '/' :: relJoin (m :: rest)).getLast? = _
    rw [getLast?_append_ne (by simp),
      show ('/' :: relJoin (m :: rest)) = ['/'] ++ relJoin (m :: rest) from rfl,
      getLast?_append_ne hne, ih]

theorem pyStrip_joinAbs (segs : List PyStr) (h0 : segs ≠ [])
    (hv : ∀ nm ∈ segs, nm ≠ [] ∧ '/' ∉ nm)
    (htr : ∀ lastNm, segs.getLast? = some lastNm → nameTrailOk lastNm = true) :
    pyStrip (joinAbs segs) = joinAbs segs := by
  obtain ⟨n, rest, rfl⟩ := List.exists_cons_of_ne_nil h0
  refine pyStrip_eq_self ?_ ?_
  · intro c hc
    unfold joinAbs at hc
    rw [if_neg (by simp)] at hc
    simp only [List.head?_cons, Option.some.injEq] at hc
    subst hc
    rfl
  · intro c hc
    obtain ⟨lastNm, hlast⟩ : ∃ x, (n :: rest).getLast? = some x :=
      ⟨(n :: rest).getLast (by simp), List.getLast?_eq_getLast _ _⟩
    have hrel := getLast_relJoin (n :: rest) lastNm hlast (fun x hx => (hv x hx).1)
    unfold joinAbs at hc
    rw [if_neg (by simp)] at hc
    have hne : relJoin (n :: rest) ≠ [] := relJoin_ne_nil (by simp) (fun x hx => (hv x hx).1)
    rw [show ('/' :: relJoin (n :: rest)) = ['/'] ++ relJoin (n :: rest) from rfl,
      getLast?_append_ne hne, hrel] at hc
    have htrl := htr lastNm hlast
    unfold nameTrailOk at htrl
    rw [hc] at htrl
    simpa using htrl

theorem joinAbs_ne_root (segs : List PyStr) (h0 : segs ≠ [])
    (h1 : ∀ nm ∈ segs, nm ≠ []) : joinAbs segs ≠ pys "/" := by
  obtain ⟨n, rest, rfl⟩ := List.exists_cons_of_ne_nil h0
  unfold joinAbs
  rw [if_neg (by simp)]
  intro hx
  have hrel : relJoin (n :: rest) = [] := by simpa using congrArg List.tail hx
  exact relJoin_ne_nil (by simp) h1 hrel

theorem startsWithSlash_joinAbs (segs : List PyStr) (h0 : segs ≠ []) :
    startsWithSlash (joinAbs segs) = true := by
  obtain ⟨n, rest, rfl⟩ := List.exists_cons_of_ne_nil h0
  unfold joinAbs
  rw [if_neg (by simp)]
  rfl

/-! ## Parsed rows and the insertion fold -/

/-- A data row as `_insert_row` receives it: the split segments, the
(stripped) type, the content field, and the raw path used in error
messages. -/
structure RowP where
  parts : List PyStr
  ty : PyStr
  content : PyStr
  raw : PyStr

/-- One parsed row applied to the tree. -/
def stepP (t : VfsNode) (r : RowP) : Except VfsLoadError VfsNode :=
  insertParts t r.parts r.ty r.content r.raw

/-- The row loop over parsed rows. -/
def insertAllP (t : VfsNode) : List RowP → Except VfsLoadError VfsNode
  | [] => .ok t
  | r :: rs =>
    match stepP t r with
    | .ok t2 => insertAllP t2 rs
    | .error e => .error e

/-- Row data without the raw path. -/
abbrev RowE := List PyStr × PyStr × PyStr

def eraseRaw (r : RowP) : RowE := (r.parts, r.ty, r.content)

/-- Parse a written 3-field row the way the `from_csv` loop does. -/
def parseRowE (row : List PyStr) : RowE :=
  (parseParts (pyStrip (row.getD 0 [])), pyStrip (row.getD 1 []), row.getD 2 [])

def parseRowFull (row : List PyStr) : RowP :=
  ⟨parseParts (pyStrip (row.getD 0 [])), pyStrip (row.getD 1 []), row.getD 2 [],
   pyStrip (row.getD 0 [])⟩

/-- The parsed rows a child `(n, c)` contributes, with paths relative to
the parent (the serialized path of `c` itself is `/` + `n`). -/
def blockE (n : PyStr) (c : VfsNode) : List RowE :=
  (writeNodeRows c (joinAbs [n])).map parseRowE

def childBlocksE (l : List (PyStr × VfsNode)) : List RowE :=
  l.flatMap (fun kc => blockE kc.1 kc.2)

/-- Prefix a row's segments with one more leading segment. -/
def consE (n : PyStr) (r : RowE) : RowE := (n :: r.1, r.2.1, r.2.2)

theorem VfsNode.children_withChildren (t : VfsNode) (cs : List (PyStr × VfsNode)) :
    (t.withChildren cs).children = cs := by cases t; rfl

theorem VfsNode.is_dir_withChildren (t : VfsNode) (cs : List (PyStr × VfsNode)) :
    (t.withChildren cs).is_dir = t.is_dir := by cases t; rfl

theorem VfsNode.withChildren_withChildren (t : VfsNode) (a b : List (PyStr × VfsNode)) :
    (t.withChildren a).withChildren b = t.withChildren b := by cases t; rfl

theorem VfsNode.withChildren_self (t : VfsNode) : t.withChildren t.children = t := by
  cases t; rfl

theorem setChild_lookup_self (cs : List (PyStr × VfsNode)) (n : PyStr) (d : VfsNode)
    (h : lookupChild cs n = some d) : setChild cs n d = cs := by
  induction cs with
  | nil => simp [lookupChild] at h
  | cons hd tl ih =>
    obtain ⟨k, w⟩ := hd
    by_cases hk : k = n
    · subst hk
      have h2 : lookupChild ((k, w) :: tl) k = some w := by
        unfold lookupChild
        rw [if_pos rfl]
      rw [h2] at h
      injection h with h3
      subst h3
      show setChild ((k, w) :: tl) k w = (k, w) :: tl
      unfold setChild
      rw [if_pos rfl]
    · simp only [lookupChild, if_neg hk] at h
      simp [setChild, hk, ih h]

theorem insertAllP_append (rs1 rs2 : List RowP) : ∀ t : VfsNode,
    insertAllP t (rs1 ++ rs2) =
      match insertAllP t rs1 with
      | .ok t2 => insertAllP t2 rs2
      | .error e => .error e := by
  induction rs1 with
  | nil => intro t; rfl
  | cons r rs ih =>
    intro t
    show insertAllP t (r :: (rs ++ rs2)) = _
    simp only [insertAllP]
    cases stepP t r with
    | ok t2 => exact ih t2
    | error e => rfl

theorem insertParts_preserves : ∀ (parts : List PyStr) (t : VfsNode)
    (ty cb raw : PyStr) (t2 : VfsNode), insertParts t parts ty cb raw = .ok t2 →
    t2.is_dir = t.is_dir ∧ t2.name = t.name
  | [], t, ty, cb, raw, t2, h => by
    simp only [insertParts, Except.ok.injEq] at h
    subst h
    exact ⟨rfl, rfl⟩
  | [leaf], t, ty, cb, raw, t2, h => by
    simp only [insertParts] at h
    by_cases h1 : ty = pys "dir"
    · rw [if_pos h1] at h
      unfold ensureChildDirF at h
      cases hl : lookupChild t.children leaf with
      | some c =>
        simp only [hl] at h
        by_cases hd : c.is_dir = true
        · rw [if_pos hd] at h
          cases h
          exact ⟨rfl, rfl⟩
        · rw [if_neg hd] at h
          cases h
      | none =>
        simp only [hl] at h
        cases h
        exact ⟨(VfsNode.is_dir_withChildren ..), by cases t; rfl⟩
    · rw [if_neg h1] at h
      by_cases h2 : ty = pys "file"
      · rw [if_pos h2] at h
        cases hdec : b64decodeStr cb with
        | ok content =>
          simp only [hdec] at h
          cases h
          exact ⟨(VfsNode.is_dir_withChildren ..), by cases t; rfl⟩
        | error e =>
          simp only [hdec] at h
          cases h
      · rw [if_neg h2] at h
        cases h
  | p :: q :: rest, t, ty, cb, raw, t2, h => by
    simp only [insertParts] at h
    cases hl : lookupChild t.children p with
    | some c =>
      simp only [hl] at h
      by_cases hd : c.is_dir = true
      · rw [if_pos hd] at h
        cases hi : insertParts c (q :: rest) ty cb raw with
        | ok c2 =>
          simp only [hi] at h
          cases h
          exact ⟨(VfsNode.is_dir_withChildren ..), by cases t; rfl⟩
        | error e =>
          simp only [hi] at h
          cases h
      · rw [if_neg hd] at h
        cases h
    | none =>
      simp only [hl] at h
      cases hi : insertParts (emptyDirNamed p) (q :: rest) ty cb raw with
      | ok c2 =>
        simp only [hi] at h
        cases h
        exact ⟨(VfsNode.is_dir_withChildren ..), by cases t; rfl⟩
      | error e =>
        simp only [hi] at h
        cases h

/-- Descend one level: inserting rows that all start with the segment `n`
into `t`, where `t` has the directory child `d` at `n`, is inserting their
tails into `d` and writing the result back. -/
theorem insertAllP_descend : ∀ (rows : List RowP) (t d : VfsNode) (n : PyStr),
    lookupChild t.children n = some d → d.is_dir = true →
    (∀ r ∈ rows, r.parts.head? = some n ∧ r.parts.tail ≠ []) →
    insertAllP t rows =
      match insertAllP d (rows.map (fun r => ⟨r.parts.tail, r.ty, r.content, r.raw⟩)) with
      | .ok d2 => .ok (t.withChildren (setChild t.children n d2))
      | .error e => .error e
  | [], t, d, n, hl, _, _ => by
    show Except.ok t = Except.ok (t.withChildren (setChild t.children n d))
    rw [setChild_lookup_self _ _ _ hl, VfsNode.withChildren_self]
  | r :: rs, t, d, n, hl, hd, hshape => by
    obtain ⟨hhead, htail⟩ := hshape r (by simp)
    obtain ⟨ps, hps⟩ : ∃ ps, r.parts = n :: ps := by
      cases hp : r.parts with
      | nil => rw [hp] at hhead; cases hhead
      | cons x xs =>
        rw [hp] at hhead
        simp only [List.head?_cons, Option.some.injEq] at hhead
        exact ⟨xs, by rw [hhead]⟩
    obtain ⟨q, ps2, rfl⟩ : ∃ q ps2, ps = q :: ps2 := by
      cases hq : ps with
      | nil => rw [hps, hq] at htail; simp at htail
      | cons q ps2 => exact ⟨q, ps2, rfl⟩
    have hmapcons : (r :: rs).map (fun r => (⟨r.parts.tail, r.ty, r.content, r.raw⟩ : RowP)) =
        ⟨q :: ps2, r.ty, r.content, r.raw⟩ ::
          rs.map (fun r => (⟨r.parts.tail, r.ty, r.content, r.raw⟩ : RowP)) := by
      simp [hps]
    rw [hmapcons]
    cases hi : insertParts d (q :: ps2) r.ty r.content r.raw with
    | error e =>
      have hstepT : stepP t r = .error e := by
        unfold stepP
        rw [hps]
        simp only [insertParts, hl, if_pos hd, hi]
      have hstepD : stepP d ⟨q :: ps2, r.ty, r.content, r.raw⟩ = .error e := hi
      simp only [insertAllP, hstepT, hstepD]
    | ok d2 =>
      have hstepT : stepP t r = .ok (t.withChildren (setChild t.children n d2)) := by
        unfold stepP
        rw [hps]
        simp only [insertParts, hl, if_pos hd, hi]
      have hstepD : stepP d ⟨q :: ps2, r.ty, r.content, r.raw⟩ = .ok d2 := hi
      simp only [insertAllP, hstepT, hstepD]
      have hd2 : d2.is_dir = true := by
        have hpre := insertParts_preserves _ _ _ _ _ _ hi
        rw [hpre.1, hd]
      have hl2 : lookupChild (t.withChildren (setChild t.children n d2)).children n = some d2 := by
        rw [VfsNode.children_withChildren]
        exact lookupChild_setChild_self _ _ _
      rw [insertAllP_descend rs (t.withChildren (setChild t.children n d2)) d2 n hl2 hd2
        (fun x hx => hshape x (by simp [hx]))]
      cases insertAllP d2 (rs.map (fun r => (⟨r.parts.tail, r.ty, r.content, r.raw⟩ : RowP))) with
      | ok d3 =>
        show Except.ok _ = Except.ok _
        rw [VfsNode.children_withChildren, VfsNode.withChildren_withChildren, setChild_setChild]
      | error e => rfl

/-! ## Generated rows parse back to their segment lists -/

theorem parseRowE_triple (p t c : PyStr) :
    parseRowE [p, t, c] = (parseParts (pyStrip p), pyStrip t, c) := rfl

theorem rowsShift : ∀ c : VfsNode, wfNode c = true → trailOkNode c = true →
    ∀ (pre segs : List PyStr), segs ≠ [] →
      (∀ nm ∈ pre, nm ≠ [] ∧ '/' ∉ nm) →
      (∀ nm ∈ segs, nm ≠ [] ∧ '/' ∉ nm) →
      (∀ lastNm, segs.getLast? = some lastNm → nameTrailOk lastNm = true) →
      (writeNodeRows c (joinAbs (pre ++ segs))).map parseRowE =
        ((writeNodeRows c (joinAbs segs)).map parseRowE).map
          (fun r => (pre ++ r.1, r.2.1, r.2.2)) := by
  refine nodeInd _ (fun m d cs ct ih => ?_)
  intro hwf htr pre segs hne hpre hsegs hlast
  have hposegs : ∀ nm ∈ pre ++ segs, nm ≠ [] ∧ '/' ∉ nm := by
    intro nm hnm
    rcases List.mem_append.mp hnm with h | h
    · exact hpre nm h
    · exact hsegs nm h
  have hne2 : pre ++ segs ≠ [] := fun hx => hne (List.append_eq_nil.mp hx).2
  have hlast2 : ∀ lastNm, (pre ++ segs).getLast? = some lastNm → nameTrailOk lastNm = true := by
    intro l hl
    rw [getLast?_append_ne hne] at hl
    exact hlast l hl
  have hstrip1 : pyStrip (joinAbs (pre ++ segs)) = joinAbs (pre ++ segs) :=
    pyStrip_joinAbs _ hne2 hposegs hlast2
  have hparse1 : parseParts (joinAbs (pre ++ segs)) = pre ++ segs :=
    parseParts_joinAbs _ hne2 hposegs
  have hstrip2 : pyStrip (joinAbs segs) = joinAbs segs :=
    pyStrip_joinAbs _ hne hsegs hlast
  have hparse2 : parseParts (joinAbs segs) = segs :=
    parseParts_joinAbs _ hne hsegs
  cases d with
  | false =>
    rw [writeNodeRows_file, writeNodeRows_file]
    rw [if_neg (joinAbs_ne_root _ hne2 (fun x hx => (hposegs x hx).1)),
        if_neg (joinAbs_ne_root _ hne (fun x hx => (hsegs x hx).1))]
    simp only [List.map_cons, List.map_nil, parseRowE_triple]
    rw [hstrip1, hparse1, hstrip2, hparse2]
  | true =>
    rw [writeNodeRows_dir, writeNodeRows_dir]
    simp only [List.map_cons]
    congr 1
    · rw [parseRowE_triple, parseRowE_triple, hstrip1, hparse1, hstrip2, hparse2]
    · rw [List.map_flatMap, List.map_flatMap, List.map_flatMap]
      refine List.flatMap_congr (fun kc hkc => ?_)
      obtain ⟨k, c⟩ := kc
      have hmem : (k, c) ∈ cs := mem_sortPairs.mp hkc
      obtain ⟨hvk, _, hwc⟩ := wfChildren_mem (wfNode_dir_parts hwf).2.2 hmem
      obtain ⟨hk1, hk2⟩ := validName_parts hvk
      have htrc := trailOkChildren_mem (show trailOkChildren cs = true from htr) hmem
      rw [childPathOf_joinAbs _ k (fun x hx => (hposegs x hx).1),
          childPathOf_joinAbs _ k (fun x hx => (hsegs x hx).1)]
      rw [List.append_assoc]
      exact ih k c hmem hwc htrc.2 pre (segs ++ [k]) (by simp) hpre
        (by
          intro x hx
          rcases List.mem_append.mp hx with h | h
          · exact hsegs x h
          · simp only [List.mem_singleton] at h
            subst h
            exact ⟨hk1, hk2⟩)
        (by
          intro l hl
          rw [List.getLast?_concat] at hl
          injection hl with hh
          subst hh
          exact htrc.1)

theorem blockE_file (n m : PyStr) (cs : List (PyStr × VfsNode)) (ct : Bytes)
    (hn : n ≠ [] ∧ '/' ∉ n) (htr : nameTrailOk n = true) :
    blockE n (.mk m false cs ct) = [([n], pys "file", b64encodeBytes ct)] := by
  unfold blockE
  rw [writeNodeRows_file]
  rw [if_neg (joinAbs_ne_root [n] (by simp) (by simpa using hn.1))]
  simp only [List.map_cons, List.map_nil, parseRowE_triple]
  rw [pyStrip_joinAbs [n] (by simp) (by simpa using hn)
      (by
        intro l hl
        simp only [List.getLast?_singleton, Option.some.injEq] at hl
        subst hl
        exact htr),
    parseParts_joinAbs [n] (by simp) (by simpa using hn)]
  rfl

theorem blockE_dir (n m : PyStr) (cs : List (PyStr × VfsNode)) (ct : Bytes)
    (hwf : wfNode (.mk m true cs ct) = true) (htrn : trailOkNode (.mk m true cs ct) = true)
    (hn : n ≠ [] ∧ '/' ∉ n) (htr : nameTrailOk n = true) :
    blockE n (.mk m true cs ct) =
      ([n], pys "dir", []) :: (childBlocksE (sortPairs cs)).map (consE n) := by
  unfold blockE
  rw [writeNodeRows_dir]
  simp only [List.map_cons]
  congr 1
  · rw [parseRowE_triple]
    rw [pyStrip_joinAbs [n] (by simp) (by simpa using hn)
        (by
          intro l hl
          simp only [List.getLast?_singleton, Option.some.injEq] at hl
          subst hl
          exact htr),
      parseParts_joinAbs [n] (by simp) (by simpa using hn)]
    rfl
  · unfold childBlocksE
    rw [List.map_flatMap, List.map_flatMap]
    refine List.flatMap_congr (fun kc hkc => ?_)
    obtain ⟨k, c⟩ := kc
    have hmem : (k, c) ∈ cs := mem_sortPairs.mp hkc
    obtain ⟨hvk, _, hwc⟩ := wfChildren_mem (wfNode_dir_parts hwf).2.2 hmem
    obtain ⟨hk1, hk2⟩ := validName_parts hvk
    have htrc := trailOkChildren_mem (show trailOkChildren cs = true from htrn) hmem
    rw [childPathOf_joinAbs [n] k (by simpa using hn.1)]
    have hs := rowsShift c hwc htrc.2 [n] [k] (by simp)
      (by simpa using hn) (by simp [hk1, hk2])
      (by
        intro l hl
        simp only [List.getLast?_singleton, Option.some.injEq] at hl
        subst hl
        exact htrc.1)
    rw [hs]
    rfl

/-! ## Normalization commutes with sorting; key uniqueness -/

theorem normChildren_eq_map : ∀ cs : List (PyStr × VfsNode),
    normChildren cs = cs.map (fun kc => (kc.1, normalizeNode kc.2))
  | [] => rfl
  | (k, c) :: rest => by
    show (k, normalizeNode c) :: normChildren rest = _
    rw [normChildren_eq_map rest]
    rfl

theorem orderedInsert_map_fst (f : (PyStr × VfsNode) → (PyStr × VfsNode))
    (hf : ∀ p, (f p).1 = p.1) (a : PyStr × VfsNode) :
    ∀ l : List (PyStr × VfsNode),
      List.orderedInsert (fun x y => lexLe x.1 y.1 = true) (f a) (l.map f) =
        (List.orderedInsert (fun x y => lexLe x.1 y.1 = true) a l).map f
  | [] => rfl
  | b :: l => by
    simp only [List.orderedInsert]
    by_cases h : lexLe a.1 b.1 = true
    · rw [if_pos (show lexLe (f a).1 (f b).1 = true by rw [hf, hf]; exact h), if_pos h,
        List.map_cons, List.map_cons]
    · rw [if_neg (show ¬lexLe (f a).1 (f b).1 = true by rw [hf, hf]; exact h), if_neg h,
        List.map_cons, orderedInsert_map_fst f hf a l]

theorem sortPairs_map_fst (f : (PyStr × VfsNode) → (PyStr × VfsNode))
    (hf : ∀ p, (f p).1 = p.1) :
    ∀ cs : List (PyStr × VfsNode), sortPairs (cs.map f) = (sortPairs cs).map f
  | [] => rfl
  | c :: cs => by
    show List.orderedInsert _ (f c) (sortPairs (cs.map f)) = _
    rw [sortPairs_map_fst f hf cs]
    exact orderedInsert_map_fst f hf c (sortPairs cs)

theorem sortPairs_normChildren (cs : List (PyStr × VfsNode)) :
    sortPairs (normChildren cs) = (sortPairs cs).map (fun kc => (kc.1, normalizeNode kc.2)) := by
  rw [normChildren_eq_map,
    sortPairs_map_fst (fun kc => (kc.1, normalizeNode kc.2)) (fun p => rfl)]

theorem keysNodup_cons_parts {k : PyStr} {c : VfsNode} {rest : List (PyStr × VfsNode)}
    (h : keysNodup ((k, c) :: rest) = true) :
    k ∉ rest.map Prod.fst ∧ keysNodup rest = true := by
  have h2 : (decide (k ∉ rest.map Prod.fst) && keysNodup rest) = true := h
  simp only [Bool.and_eq_true, decide_eq_true_eq] at h2
  exact h2

theorem keysNodup_iff : ∀ cs : List (PyStr × VfsNode),
    keysNodup cs = true ↔ (cs.map Prod.fst).Nodup
  | [] => by simp [keysNodup]
  | (k, c) :: rest => by
    show (decide (k ∉ rest.map Prod.fst) && keysNodup rest) = true ↔ _
    rw [List.map_cons, List.nodup_cons, ← keysNodup_iff rest]
    simp

theorem keysNodup_sortPairs (cs : List (PyStr × VfsNode)) (h : keysNodup cs = true) :
    keysNodup (sortPairs cs) = true := by
  rw [keysNodup_iff] at h ⊢
  exact ((sortPairs_perm cs).map Prod.fst).nodup_iff.mpr h

/-! ## Every generated row of a child block starts with the child's key -/

theorem childBlocksE_first_seg (l : List (PyStr × VfsNode))
    (hl : ∀ kc ∈ l, wfNode kc.2 = true ∧ trailOkNode kc.2 = true ∧
      kc.1 ≠ [] ∧ '/' ∉ kc.1 ∧ nameTrailOk kc.1 = true) :
    ∀ e ∈ childBlocksE l, ∃ k ps, e.1 = k :: ps := by
  intro e he
  obtain ⟨⟨k, c⟩, hkc, he2⟩ := List.mem_flatMap.mp he
  obtain ⟨hw, htr, h1, h2, h3⟩ := hl _ hkc
  cases c with
  | mk m d cs ct =>
    cases d with
    | false =>
      rw [blockE_file k m cs ct ⟨h1, h2⟩ h3] at he2
      simp only [List.mem_singleton] at he2
      exact ⟨k, [], by rw [he2]⟩
    | true =>
      rw [blockE_dir k m cs ct hw htr ⟨h1, h2⟩ h3] at he2
      rcases List.mem_cons.mp he2 with h | h
      · exact ⟨k, [], by rw [h]⟩
      · obtain ⟨e2, _, rfl⟩ := List.mem_map.mp h
        exact ⟨k, e2.1, rfl⟩

/-! ## Inserting the blocks of a list of children -/

theorem insertBlocks : ∀ l : List (PyStr × VfsNode),
    (∀ kc ∈ l, ∀ (t2 : VfsNode) (rows2 : List RowP),
      rows2.map eraseRaw = blockE kc.1 kc.2 →
      lookupChild t2.children kc.1 = none →
      insertAllP t2 rows2 =
        .ok (t2.withChildren (t2.children ++ [(kc.1, normalizeNode kc.2)]))) →
    keysNodup l = true →
    ∀ (t : VfsNode) (rows : List RowP),
      rows.map eraseRaw = childBlocksE l →
      (∀ kc ∈ l, lookupChild t.children kc.1 = none) →
      insertAllP t rows =
        .ok (t.withChildren (t.children ++ l.map (fun kc => (kc.1, normalizeNode kc.2))))
  | [], _, _, t, rows, hrows, _ => by
    have hnil : rows = [] := by
      have : rows.map eraseRaw = [] := by rw [hrows]; rfl
      exact List.map_eq_nil_iff.mp this
    subst hnil
    show Except.ok t = _
    rw [List.map_nil, List.append_nil, VfsNode.withChildren_self]
  | (k, c) :: rest, hIH, hnodup, t, rows, hrows, hfresh => by
    obtain ⟨hknotin, hnodup2⟩ := keysNodup_cons_parts hnodup
    have hsplit : childBlocksE ((k, c) :: rest) = blockE k c ++ childBlocksE rest :=
      List.flatMap_cons ..
    rw [hsplit] at hrows
    obtain ⟨rows1, rows2, rfl, h1, h2⟩ := List.map_eq_append_iff.mp hrows
    rw [insertAllP_append]
    rw [hIH (k, c) (by simp) t rows1 h1 (hfresh (k, c) (by simp))]
    show insertAllP (t.withChildren (t.children ++ [(k, normalizeNode c)])) rows2 = _
    have hres := insertBlocks rest (fun kc h => hIH kc (by simp [h])) hnodup2
      (t.withChildren (t.children ++ [(k, normalizeNode c)])) rows2 h2
      (by
        intro kc hkc
        rw [VfsNode.children_withChildren]
        rw [lookupChild_append_right _ _ _ (hfresh kc (by simp [hkc]))]
        have hne : k ≠ kc.1 := by
          intro hx
          exact hknotin (hx ▸ List.mem_map_of_mem Prod.fst hkc)
        unfold lookupChild
        rw [if_neg hne]
        rfl)
    rw [hres]
    show Except.ok _ = Except.ok _
    rw [VfsNode.children_withChildren, VfsNode.withChildren_withChildren]
    simp

/-- Inserting the parsed rows of the serialized subtree of a well-formed
child `(n, c)` into a tree without an `n` child appends exactly the
normalized copy of `c`. -/
theorem insertBlock : ∀ c : VfsNode, wfNode c = true → trailOkNode c = true →
    ∀ n : PyStr, c.name = n → n ≠ [] → '/' ∉ n → nameTrailOk n = true →
    ∀ (t : VfsNode) (rows : List RowP),
      rows.map eraseRaw = blockE n c →
      lookupChild t.children n = none →
      insertAllP t rows = .ok (t.withChildren (t.children ++ [(n, normalizeNode c)])) := by
  refine nodeInd _ (fun m d cs ct ih => ?_)
  intro hwf htr n hname hn1 hn2 hn3 t rows hrows hlook
  have hmn : m = n := hname
  subst hmn
  cases d with
  | false =>
    obtain ⟨hcs, hbytes⟩ := wfNode_file_parts hwf
    rw [blockE_file m m cs ct ⟨hn1, hn2⟩ hn3] at hrows
    obtain ⟨r, rs, rfl, hr, hrs⟩ : ∃ r rs, rows = r :: rs ∧
        eraseRaw r = ([m], pys "file", b64encodeBytes ct) ∧ rs.map eraseRaw = [] := by
      cases rows with
      | nil => simp at hrows
      | cons r rs =>
        simp only [List.map_cons, List.cons.injEq] at hrows
        exact ⟨r, rs, rfl, hrows.1, hrows.2⟩
    have hrsnil : rs = [] := List.map_eq_nil_iff.mp hrs
    subst hrsnil
    have hparts : r.parts = [m] := congrArg Prod.fst hr
    have hty : r.ty = pys "file" := congrArg (fun x => x.2.1) hr
    have hct : r.content = b64encodeBytes ct := congrArg (fun x => x.2.2) hr
    show (match stepP t r with
      | .ok t2 => insertAllP t2 []
      | .error e => .error e) = _
    have hstep : stepP t r = .ok (setFileF t m ct) := by
      unfold stepP
      rw [hparts, hty, hct]
      simp only [insertParts, if_neg (show ¬(pys "file" = pys "dir") from by decide),
        if_pos (show pys "file" = pys "file" from rfl), b64_roundtrip ct hbytes]
      simp
    rw [hstep]
    show Except.ok _ = Except.ok _
    unfold setFileF
    rw [setChild_fresh _ _ _ hlook]
    subst hcs
    rfl
  | true =>
    obtain ⟨hct, hnodup, hwfc⟩ := wfNode_dir_parts hwf
    rw [blockE_dir m m cs ct hwf htr ⟨hn1, hn2⟩ hn3] at hrows
    obtain ⟨r0, rows2, rfl, hr0, hrows2⟩ : ∃ r0 rows2, rows = r0 :: rows2 ∧
        eraseRaw r0 = ([m], pys "dir", []) ∧
        rows2.map eraseRaw = (childBlocksE (sortPairs cs)).map (consE m) := by
      cases rows with
      | nil => simp at hrows
      | cons a b =>
        simp only [List.map_cons, List.cons.injEq] at hrows
        exact ⟨a, b, rfl, hrows.1, hrows.2⟩
    have hparts : r0.parts = [m] := congrArg Prod.fst hr0
    have hty : r0.ty = pys "dir" := congrArg (fun x => x.2.1) hr0
    show (match stepP t r0 with
      | .ok t2 => insertAllP t2 rows2
      | .error e => .error e) = _
    have hstep : stepP t r0 = .ok (t.withChildren (t.children ++ [(m, emptyDirNamed m)])) := by
      unfold stepP
      rw [hparts, hty]
      simp only [insertParts, if_pos (show pys "dir" = pys "dir" from rfl)]
      unfold ensureChildDirF
      simp only [hlook]
      rw [setChild_fresh _ _ _ hlook]
      simp
    rw [hstep]
    show insertAllP (t.withChildren (t.children ++ [(m, emptyDirNamed m)])) rows2 = _
    have hwfl : ∀ kc ∈ sortPairs cs, wfNode kc.2 = true ∧ trailOkNode kc.2 = true ∧
        kc.1 ≠ [] ∧ '/' ∉ kc.1 ∧ nameTrailOk kc.1 = true := by
      intro kc hkc
      have hmem := mem_sortPairs.mp hkc
      obtain ⟨k2, c2⟩ := kc
      obtain ⟨hvk, _, hwc⟩ := wfChildren_mem hwfc hmem
      obtain ⟨hk1, hk2⟩ := validName_parts hvk
      have htrc := trailOkChildren_mem (show trailOkChildren cs = true from htr) hmem
      exact ⟨hwc, htrc.2, hk1, hk2, htrc.1⟩
    have hshape : ∀ r ∈ rows2, r.parts.head? = some m ∧ r.parts.tail ≠ [] := by
      intro r hr
      have hmm : eraseRaw r ∈ (childBlocksE (sortPairs cs)).map (consE m) := by
        rw [← hrows2]
        exact List.mem_map_of_mem _ hr
      obtain ⟨e, he, heq⟩ := List.mem_map.mp hmm
      obtain ⟨k, ps, hke⟩ := childBlocksE_first_seg _ hwfl e he
      have hparts2 : r.parts = m :: e.1 := (congrArg Prod.fst heq).symm
      rw [hparts2]
      refine ⟨rfl, ?_⟩
      show e.1 ≠ []
      simp [hke]
    have hlook1 : lookupChild (t.withChildren
        (t.children ++ [(m, emptyDirNamed m)])).children m = some (emptyDirNamed m) := by
      rw [VfsNode.children_withChildren, lookupChild_append_right _ _ _ hlook]
      unfold lookupChild
      rw [if_pos rfl]
    rw [insertAllP_descend rows2 _ (emptyDirNamed m) m hlook1 rfl hshape]
    have htails : (rows2.map (fun r => (⟨r.parts.tail, r.ty, r.content, r.raw⟩ : RowP))).map
        eraseRaw = childBlocksE (sortPairs cs) := by
      rw [List.map_map]
      have hcomp : (eraseRaw ∘ fun r => (⟨r.parts.tail, r.ty, r.content, r.raw⟩ : RowP)) =
          (fun x : RowE => (x.1.tail, x.2.1, x.2.2)) ∘ eraseRaw := rfl
      rw [hcomp, ← List.map_map, hrows2, List.map_map]
      have h2 : ∀ e ∈ childBlocksE (sortPairs cs),
          ((fun x : RowE => (x.1.tail, x.2.1, x.2.2)) ∘ consE m) e = id e := fun e _ => rfl
      rw [List.map_congr_left h2, List.map_id]
    have hres := insertBlocks (sortPairs cs)
      (by
        intro kc hkc t2 rows3 hr3 hl3
        have hmem := mem_sortPairs.mp hkc
        obtain ⟨hw2, ht2, hk1, hk2, hk3⟩ := hwfl kc hkc
        obtain ⟨k2, c2⟩ := kc
        obtain ⟨hvk, hkeq, hwc⟩ := wfChildren_mem hwfc hmem
        exact ih k2 c2 hmem hw2 ht2 k2 hkeq.symm hk1 hk2 hk3 t2 rows3 hr3 hl3)
      (keysNodup_sortPairs cs hnodup)
      (emptyDirNamed m)
      (rows2.map (fun r => (⟨r.parts.tail, r.ty, r.content, r.raw⟩ : RowP)))
      htails
      (fun kc _ => rfl)
    rw [hres]
    show Except.ok _ = Except.ok _
    rw [VfsNode.children_withChildren, setChild_append_last _ _ _ _ hlook,
      VfsNode.withChildren_withChildren]
    show _ = Except.ok (t.withChildren (t.children ++ [(m, normalizeNode (VfsNode.mk m true cs ct))]))
    have hnorm : normalizeNode (VfsNode.mk m true cs ct) =
        VfsNode.mk m true ((sortPairs cs).map (fun kc => (kc.1, normalizeNode kc.2))) ct := by
      show VfsNode.mk m true (sortPairs (normChildren cs)) ct = _
      rw [sortPairs_normChildren]
    rw [hnorm]
    subst hct
    rfl

/-! ## Bridging the string-level loop to the parsed-row loop -/

/-- A written data row as the `from_csv` loop will see it: three fields, a
strip-invariant absolute non-root path with at least one segment. -/
def goodRow (row : List PyStr) : Prop :=
  ∃ p ty ct, row = [p, ty, ct] ∧ pyStrip p = p ∧ startsWithSlash p = true ∧
    p ≠ pys "/" ∧ parseParts p ≠ []

theorem rowGet_path (p ty ct : PyStr) :
    rowGet csvHeaderRow [p, ty, ct] (pys "path") = p := rfl

theorem rowGet_type (p ty ct : PyStr) :
    rowGet csvHeaderRow [p, ty, ct] (pys "type") = ty := rfl

theorem rowGet_content (p ty ct : PyStr) :
    rowGet csvHeaderRow [p, ty, ct] (pys "content_base64") = ct := rfl

theorem stepRow_good (t : VfsNode) (row : List PyStr) (h : goodRow row) :
    stepRow t csvHeaderRow row = stepP t (parseRowFull row) := by
  obtain ⟨p, ty, ct, rfl, hstrip, hstart, hne, hparts⟩ := h
  have hpne : p ≠ [] := by
    intro hx
    rw [hx] at hstart
    cases hstart
  unfold stepRow
  rw [rowGet_path, rowGet_type, rowGet_content, hstrip]
  rw [if_neg hpne]
  unfold insertRow
  rw [if_neg (by simp [hstart]), if_neg hne]
  show (if parseParts p = [] then Except.error (VfsLoadError.invalidPath p)
    else insertParts t (parseParts p) (pyStrip ty) ct p) = _
  rw [if_neg hparts]
  show insertParts t (parseParts p) (pyStrip ty) ct p =
    insertParts t (parseParts (pyStrip p)) (pyStrip ty) ct (pyStrip p)
  rw [hstrip]

theorem insertAllRows_bridge : ∀ (rows : List (List PyStr)) (t : VfsNode),
    (∀ row ∈ rows, goodRow row) →
    insertAllRows t csvHeaderRow rows = insertAllP t (rows.map parseRowFull)
  | [], _, _ => rfl
  | row :: rs, t, h => by
    have hg := h row (by simp)
    have hrownil : row ≠ [] := by
      obtain ⟨p, ty, ct, rfl, _⟩ := hg
      simp
    simp only [insertAllRows, if_neg hrownil, List.map_cons]
    rw [stepRow_good t row hg]
    show _ = (match stepP t (parseRowFull row) with
      | .ok t2 => insertAllP t2 (rs.map parseRowFull)
      | .error e => .error e)
    cases stepP t (parseRowFull row) with
    | ok t2 => exact insertAllRows_bridge rs t2 (fun x hx => h x (by simp [hx]))
    | error e => rfl

/-- Every row the writer emits below the root row is a good data row. -/
theorem writeRows_good : ∀ c : VfsNode, wfNode c = true → trailOkNode c = true →
    ∀ segs : List PyStr, segs ≠ [] → (∀ nm ∈ segs, nm ≠ [] ∧ '/' ∉ nm) →
      (∀ lastNm, segs.getLast? = some lastNm → nameTrailOk lastNm = true) →
      ∀ row ∈ writeNodeRows c (joinAbs segs), goodRow row := by
  refine nodeInd _ (fun m d cs ct ih => ?_)
  intro hwf htr segs hne hsegs hlast row hrow
  have hstrip := pyStrip_joinAbs segs hne hsegs hlast
  have hparse := parseParts_joinAbs segs hne hsegs
  have hroot := joinAbs_ne_root segs hne (fun x hx => (hsegs x hx).1)
  have hstart := startsWithSlash_joinAbs segs hne
  cases d with
  | false =>
    rw [writeNodeRows_file, if_neg hroot] at hrow
    simp only [List.mem_singleton] at hrow
    subst hrow
    exact ⟨_, _, _, rfl, hstrip, hstart, hroot, by rw [hparse]; exact hne⟩
  | true =>
    rw [writeNodeRows_dir] at hrow
    rcases List.mem_cons.mp hrow with h | h
    · subst h
      exact ⟨_, _, _, rfl, hstrip, hstart, hroot, by rw [hparse]; exact hne⟩
    · obtain ⟨⟨k, c⟩, hkc, hrow2⟩ := List.mem_flatMap.mp h
      have hmem : (k, c) ∈ cs := mem_sortPairs.mp hkc
      obtain ⟨hvk, _, hwc⟩ := wfChildren_mem (wfNode_dir_parts hwf).2.2 hmem
      obtain ⟨hk1, hk2⟩ := validName_parts hvk
      have htrc := trailOkChildren_mem (show trailOkChildren cs = true from htr) hmem
      rw [childPathOf_joinAbs segs k (fun x hx => (hsegs x hx).1)] at hrow2
      refine ih k c hmem hwc htrc.2 (segs ++ [k]) (by simp) ?_ ?_ row hrow2
      · intro x hx
        rcases List.mem_append.mp hx with hA | hA
        · exact hsegs x hA
        · simp only [List.mem_singleton] at hA
          subst hA
          exact ⟨hk1, hk2⟩
      · intro l hl
        rw [List.getLast?_concat] at hl
        injection hl with hh
        subst hh
        exact htrc.1

/-! ## The full round trip -/

/-- `from_csv(to_csv(root))` reconstructs the recursively sorted copy of
the tree under a root named `/`, for any well-formed tree whose node names
carry no trailing whitespace. -/
theorem fromCsv_toCsv (root : VfsNode) (hwf : wfNode root = true)
    (hdir : root.is_dir = true) (htr : trailOkNode root = true) :
    fromCsvOutput (toCsvOutput root) =
      .ok (VfsNode.mk (pys "/") true
        ((sortPairs root.children).map (fun kc => (kc.1, normalizeNode kc.2))) []) := by
  cases root with
  | mk m d cs ct =>
    have hd : d = true := hdir
    subst hd
    obtain ⟨hct, hnodup, hwfc⟩ := wfNode_dir_parts hwf
    show fromCsvRows csvHeaderRow (writeNodeRows (VfsNode.mk m true cs ct) (pys "/")) = _
    unfold fromCsvRows
    rw [if_pos (show headerOk csvHeaderRow = true from rfl)]
    rw [writeNodeRows_dir]
    have hrootstep : stepRow freshRoot csvHeaderRow [pys "/", pys "dir", []] = .ok freshRoot := rfl
    simp only [insertAllRows,
      if_neg (show ¬([pys "/", pys "dir", []] = ([] : List PyStr)) from by simp), hrootstep]
    have hgood : ∀ row ∈ (sortPairs cs).flatMap
        (fun kc => writeNodeRows kc.2 (childPathOf (pys "/") kc.1)), goodRow row := by
      intro row hrow
      obtain ⟨⟨k, c⟩, hkc, hrow2⟩ := List.mem_flatMap.mp hrow
      have hmem : (k, c) ∈ cs := mem_sortPairs.mp hkc
      obtain ⟨hvk, _, hwc⟩ := wfChildren_mem hwfc hmem
      obtain ⟨hk1, hk2⟩ := validName_parts hvk
      have htrc := trailOkChildren_mem (show trailOkChildren cs = true from htr) hmem
      refine writeRows_good c hwc htrc.2 [k] (by simp) (by simp [hk1, hk2]) ?_ row hrow2
      intro l hl
      simp only [List.getLast?_singleton, Option.some.injEq] at hl
      subst hl
      exact htrc.1
    rw [insertAllRows_bridge _ freshRoot hgood]
    have herase : (((sortPairs cs).flatMap
        (fun kc => writeNodeRows kc.2 (childPathOf (pys "/") kc.1))).map parseRowFull).map
          eraseRaw = childBlocksE (sortPairs cs) := by
      rw [List.map_map]
      rw [show eraseRaw ∘ parseRowFull = parseRowE from rfl]
      rw [List.map_flatMap]
      exact List.flatMap_congr (fun kc _ => rfl)
    have hIH : ∀ kc ∈ sortPairs cs, ∀ (t2 : VfsNode) (rows2 : List RowP),
        rows2.map eraseRaw = blockE kc.1 kc.2 →
        lookupChild t2.children kc.1 = none →
        insertAllP t2 rows2 =
          .ok (t2.withChildren (t2.children ++ [(kc.1, normalizeNode kc.2)])) := by
      intro kc hkc t2 rows2 hr2 hl2
      have hmem := mem_sortPairs.mp hkc
      obtain ⟨k, c⟩ := kc
      obtain ⟨hvk, hkeq, hwc⟩ := wfChildren_mem hwfc hmem
      obtain ⟨hk1, hk2⟩ := validName_parts hvk
      have htrc := trailOkChildren_mem (show trailOkChildren cs = true from htr) hmem
      exact insertBlock c hwc htrc.2 k hkeq.symm hk1 hk2 htrc.1 t2 rows2 hr2 hl2
    rw [insertBlocks (sortPairs cs) hIH (keysNodup_sortPairs cs hnodup) freshRoot _ herase
      (fun kc _ => rfl)]
    rfl

/-! ## Path sets survive normalization -/

theorem mem_dirPathsChildren : ∀ (l : List (PyStr × VfsNode)) (p : List PyStr),
    p ∈ dirPathsChildren l ↔ ∃ k c, (k, c) ∈ l ∧ p ∈ (dirPathsD c).map (fun q => k :: q)
  | [], p => by simp [dirPathsChildren]
  | (k0, c0) :: rest, p => by
    show p ∈ (dirPathsD c0).map (fun q => k0 :: q) ++ dirPathsChildren rest ↔ _
    rw [List.mem_append, mem_dirPathsChildren rest p]
    constructor
    · rintro (h | ⟨k, c, hm, hp⟩)
      · exact ⟨k0, c0, by simp, h⟩
      · exact ⟨k, c, by simp [hm], hp⟩
    · rintro ⟨k, c, hm, hp⟩
      rcases List.mem_cons.mp hm with h | h
      · obtain ⟨rfl, rfl⟩ := Prod.mk.injEq .. |>.mp h
        exact .inl hp
      · exact .inr ⟨k, c, h, hp⟩

theorem mem_fileEntriesChildren : ∀ (l : List (PyStr × VfsNode)) (e : List PyStr × Bytes),
    e ∈ fileEntriesChildren l ↔
      ∃ k c, (k, c) ∈ l ∧ e ∈ (fileEntries c).map (fun x => (k :: x.1, x.2))
  | [], e => by simp [fileEntriesChildren]
  | (k0, c0) :: rest, e => by
    show e ∈ (fileEntries c0).map (fun x => (k0 :: x.1, x.2)) ++ fileEntriesChildren rest ↔ _
    rw [List.mem_append, mem_fileEntriesChildren rest e]
    constructor
    · rintro (h | ⟨k, c, hm, hp⟩)
      · exact ⟨k0, c0, by simp, h⟩
      · exact ⟨k, c, by simp [hm], hp⟩
    · rintro ⟨k, c, hm, hp⟩
      rcases List.mem_cons.mp hm with h | h
      · obtain ⟨rfl, rfl⟩ := Prod.mk.injEq .. |>.mp h
        exact .inl hp
      · exact .inr ⟨k, c, h, hp⟩

theorem dirPathsChildren_norm_sort (cs : List (PyStr × VfsNode))
    (hIH : ∀ k c0, (k, c0) ∈ cs →
      ∀ p, p ∈ dirPathsD (normalizeNode c0) ↔ p ∈ dirPathsD c0) :
    ∀ p, p ∈ dirPathsChildren ((sortPairs cs).map (fun kc => (kc.1, normalizeNode kc.2))) ↔
      p ∈ dirPathsChildren cs := by
  intro p
  rw [mem_dirPathsChildren, mem_dirPathsChildren]
  constructor
  · rintro ⟨k, c, hm, hp⟩
    obtain ⟨⟨k0, c0⟩, hm0, heq⟩ := List.mem_map.mp hm
    obtain ⟨rfl, rfl⟩ := Prod.mk.injEq .. |>.mp heq
    have hmem := mem_sortPairs.mp hm0
    refine ⟨k0, c0, hmem, ?_⟩
    obtain ⟨q, hq, rfl⟩ := List.mem_map.mp hp
    exact List.mem_map_of_mem _ ((hIH k0 c0 hmem q).mp hq)
  · rintro ⟨k, c, hm, hp⟩
    refine ⟨k, normalizeNode c, List.mem_map_of_mem _ (mem_sortPairs.mpr hm), ?_⟩
    obtain ⟨q, hq, rfl⟩ := List.mem_map.mp hp
    exact List.mem_map_of_mem _ ((hIH k c hm q).mpr hq)

theorem fileEntriesChildren_norm_sort (cs : List (PyStr × VfsNode))
    (hIH : ∀ k c0, (k, c0) ∈ cs →
      ∀ e, e ∈ fileEntries (normalizeNode c0) ↔ e ∈ fileEntries c0) :
    ∀ e, e ∈ fileEntriesChildren ((sortPairs cs).map (fun kc => (kc.1, normalizeNode kc.2))) ↔
      e ∈ fileEntriesChildren cs := by
  intro e
  rw [mem_fileEntriesChildren, mem_fileEntriesChildren]
  constructor
  · rintro ⟨k, c, hm, hp⟩
    obtain ⟨⟨k0, c0⟩, hm0, heq⟩ := List.mem_map.mp hm
    obtain ⟨rfl, rfl⟩ := Prod.mk.injEq .. |>.mp heq
    have hmem := mem_sortPairs.mp hm0
    refine ⟨k0, c0, hmem, ?_⟩
    obtain ⟨q, hq, rfl⟩ := List.mem_map.mp hp
    exact List.mem_map_of_mem _ ((hIH k0 c0 hmem q).mp hq)
  · rintro ⟨k, c, hm, hp⟩
    refine ⟨k, normalizeNode c, List.mem_map_of_mem _ (mem_sortPairs.mpr hm), ?_⟩
    obtain ⟨q, hq, rfl⟩ := List.mem_map.mp hp
    exact List.mem_map_of_mem _ ((hIH k c hm q).mpr hq)

theorem dirPathsD_normalize : ∀ c : VfsNode,
    ∀ p, p ∈ dirPathsD (normalizeNode c) ↔ p ∈ dirPathsD c := by
  refine nodeInd _ (fun m d cs ct ih => ?_)
  intro p
  have hnorm : normalizeNode (VfsNode.mk m d cs ct) =
      VfsNode.mk m d ((sortPairs cs).map (fun kc => (kc.1, normalizeNode kc.2))) ct := by
    show VfsNode.mk m d (sortPairs (normChildren cs)) ct = _
    rw [sortPairs_normChildren]
  rw [hnorm]
  cases d with
  | false => rfl
  | true =>
    show p ∈ [] :: dirPathsChildren _ ↔ p ∈ [] :: dirPathsChildren cs
    rw [List.mem_cons, List.mem_cons,
      dirPathsChildren_norm_sort cs (fun k c0 hm => ih k c0 hm)]

theorem fileEntries_normalize : ∀ c : VfsNode,
    ∀ e, e ∈ fileEntries (normalizeNode c) ↔ e ∈ fileEntries c := by
  refine nodeInd _ (fun m d cs ct ih => ?_)
  intro e
  have hnorm : normalizeNode (VfsNode.mk m d cs ct) =
      VfsNode.mk m d ((sortPairs cs).map (fun kc => (kc.1, normalizeNode kc.2))) ct := by
    show VfsNode.mk m d (sortPairs (normChildren cs)) ct = _
    rw [sortPairs_normChildren]
  rw [hnorm]
  cases d with
  | false => rfl
  | true =>
    show e ∈ fileEntriesChildren _ ↔ e ∈ fileEntriesChildren cs
    rw [fileEntriesChildren_norm_sort cs (fun k c0 hm => ih k c0 hm)]

/-! ## C1: the round trip, as amended, and its counterexample -/

/-- C1 (amended): for every well-formed tree whose node names have no
trailing whitespace, deserializing the serialized CSV yields a tree with
the same set of directory paths and the same set of file paths with
identical byte contents (names compared literally, hence
case-sensitively). -/
theorem c1_roundtrip_amended (root : VfsNode) (hwf : wfNode root = true)
    (hdir : root.is_dir = true) (htr : trailOkNode root = true) :
    ∃ root2, fromCsvOutput (toCsvOutput root) = .ok root2 ∧
      (∀ p, p ∈ dirPathsD root2 ↔ p ∈ dirPathsD root) ∧
      (∀ e, e ∈ fileEntries root2 ↔ e ∈ fileEntries root) := by
  refine ⟨_, fromCsv_toCsv root hwf hdir htr, ?_, ?_⟩
  · intro p
    cases root with
    | mk m d cs ct =>
      have hd : d = true := hdir
      subst hd
      show p ∈ [] :: dirPathsChildren _ ↔ p ∈ [] :: dirPathsChildren cs
      rw [List.mem_cons, List.mem_cons]
      simp only [VfsNode.children]
      rw [dirPathsChildren_norm_sort cs (fun k c0 _ => dirPathsD_normalize c0)]
  · intro e
    cases root with
    | mk m d cs ct =>
      have hd : d = true := hdir
      subst hd
      show e ∈ fileEntriesChildren _ ↔ e ∈ fileEntriesChildren cs
      simp only [VfsNode.children]
      rw [fileEntriesChildren_norm_sort cs (fun k c0 _ => fileEntries_normalize c0)]

/-- Witness for C1's amended round trip on the sample tree. -/
theorem c1_roundtrip_amended_witness :
    wfNode sampleTree = true ∧ sampleTree.is_dir = true ∧
      trailOkNode sampleTree = true ∧
    ∃ root2, fromCsvOutput (toCsvOutput sampleTree) = .ok root2 ∧
      (∀ p, p ∈ dirPathsD root2 ↔ p ∈ dirPathsD sampleTree) ∧
      (∀ e, e ∈ fileEntries root2 ↔ e ∈ fileEntries sampleTree) :=
  ⟨by decide, rfl, by decide,
   c1_roundtrip_amended sampleTree (by decide) rfl (by decide)⟩

/-- A well-formed tree with a directory named `a ` (trailing space)
containing one file `b`. -/
def wsTree : VfsNode :=
  .mk (pys "/") true
    [(pys "a ", .mk (pys "a ") true [(pys "b", .mk (pys "b") false [] [])] [])] []

/-- Counterexample to C1 as stated: `from_csv` strips each row's path
(`raw_path.strip()`), so serializing `wsTree` writes the row `/a ` whose
reload creates a directory named `a` — the reloaded tree has the extra
directory path `/a` that the original tree does not have, hence the
directory path sets differ and the trees are not structurally identical. -/
theorem c1_roundtrip_counterexample :
    wfNode wsTree = true ∧ wsTree.is_dir = true ∧
    fromCsvOutput (toCsvOutput wsTree) =
      .ok (.mk (pys "/") true
        [(pys "a", .mk (pys "a") true [] []),
         (pys "a ", .mk (pys "a ") true [(pys "b", .mk (pys "b") false [] [])] [])] []) ∧
    [pys "a"] ∈ dirPathsD (VfsNode.mk (pys "/") true
        [(pys "a", .mk (pys "a") true [] []),
         (pys "a ", .mk (pys "a ") true [(pys "b", .mk (pys "b") false [] [])] [])] []) ∧
    [pys "a"] ∉ dirPathsD wsTree :=
  ⟨by decide, rfl, by rfl, by decide, by decide⟩

/-- Witness for C4's conditional clauses: `/x` is missing from the fresh
root, and `/docs` of the size tree is found with size 13. -/
theorem c4_compute_size_witness :
    findNode freshRoot (pys "/x") = none ∧
    computeSize freshRoot (pys "/x") = .error .notFound ∧
    findNode sizeTree (pys "/docs") = some (.mk (pys "docs") true
      [(pys "empty", .mk (pys "empty") true [] []),
       (pys "readme.txt", .mk (pys "readme.txt") false []
         ((pys "Hello, World!").map Char.toNat))] []) ∧
    computeSize sizeTree (pys "/docs") = .ok (nodeSize (.mk (pys "docs") true
      [(pys "empty", .mk (pys "empty") true [] []),
       (pys "readme.txt", .mk (pys "readme.txt") false []
         ((pys "Hello, World!").map Char.toNat))] [])) :=
  ⟨rfl, c4_compute_size.1 freshRoot (pys "/x") rfl, rfl,
   c4_compute_size.2.1 sizeTree (pys "/docs") _ rfl⟩

end VfsSpec
